import Mathlib

/-!
Verification of the translation-orchestration core of the json-translate
repository against its natural-language specification.

The TypeScript sources are embedded shallowly:

* `Json` models the plain JSON values the core operates on.  An object's
  field list models the JavaScript enumeration order of its properties
  (the order `Object.keys` produces, which for the string keys of parsed
  localization files is insertion order).  `Json` is defined mutually
  with its own list types so that every function on it is structurally
  recursive and reduces inside the kernel.
* mutation through object references is rendered as persistent functional
  update: the JSON documents handled by the core are trees (they come out
  of `JSON.parse`), so following a single path and rebuilding along it is
  observationally identical to the in-place mutation the source performs.
* non-index properties stored on a JavaScript array (`arr["a[0]"] = v`)
  are invisible to `JSON.stringify`; the model drops them, keeping the
  JSON-observable value.
* the code is strict-mode TypeScript (ES modules), so assigning a
  property on a primitive value throws a `TypeError`; fallible operations
  therefore return `Except`.
* the asynchronous orchestrators are modelled by deterministic executable
  run functions: the single-worker (`maxConcurrentRequests = 1`) schedule
  for the positive theorems, and explicit interleavings of the atomic
  sections between `await` suspension points for the concurrency
  counterexamples.
-/

namespace JsonTranslate

mutual

/-- A JSON value.  `obj` carries its fields in JavaScript property
enumeration order. -/
inductive Json where
  | null : Json
  | bool (b : Bool) : Json
  | num (n : Int) : Json
  | str (s : String) : Json
  | arr (elems : JsonList) : Json
  | obj (fields : JsonFields) : Json

/-- The elements of a JSON array. -/
inductive JsonList where
  | nil : JsonList
  | cons (hd : Json) (tl : JsonList) : JsonList

/-- The fields of a JSON object, in enumeration order. -/
inductive JsonFields where
  | nil : JsonFields
  | cons (key : String) (val : Json) (tl : JsonFields) : JsonFields

end

deriving instance DecidableEq for Json, JsonList, JsonFields

/-- JavaScript truthiness of a JSON value (`NaN` and `undefined` do not
occur as `Json` values; `0`, `""`, `false` and `null` are falsy). -/
def jsTruthy : Json → Bool
  | .null => false
  | .bool b => b
  | .num n => n != 0
  | .str s => s != ""
  | .arr _ => true
  | .obj _ => true

namespace JsonFields

/-- First binding of a key (JavaScript object property lookup; parsed
JSON objects have unique keys). -/
def get : JsonFields → String → Option Json
  | .nil, _ => none
  | .cons k v rest, key => if k = key then some v else get rest key

/-- Property assignment on an object: an existing key keeps its
enumeration position, a new key is appended. -/
def set : JsonFields → String → Json → JsonFields
  | .nil, key, v => .cons key v .nil
  | .cons k v' rest, key, v =>
      if k = key then .cons key v rest else .cons k v' (set rest key v)

/-- Keys in enumeration order. -/
def keys : JsonFields → List String
  | .nil => []
  | .cons k _ rest => k :: keys rest

/-- Number of fields. -/
def length : JsonFields → Nat
  | .nil => 0
  | .cons _ _ rest => length rest + 1

end JsonFields

namespace JsonList

/-- Element at an index. -/
def get : JsonList → Nat → Option Json
  | .nil, _ => none
  | .cons x _, 0 => some x
  | .cons _ rest, i + 1 => get rest i

/-- Number of elements. -/
def length : JsonList → Nat
  | .nil => 0
  | .cons _ rest => length rest + 1

/-- Assignment `a[i] = v` on an array.  Writing past the end produces a
sparse array in JavaScript whose holes `JSON.stringify` renders as
`null`; the model pads with `null` accordingly. -/
def setPad : JsonList → Nat → Json → JsonList
  | .nil, 0, v => .cons v .nil
  | .nil, i + 1, v => .cons .null (setPad .nil i v)
  | .cons _ rest, 0, v => .cons v rest
  | .cons x rest, i + 1, v => .cons x (setPad rest i v)

end JsonList

/-- Decimal digit character. -/
def digitChar (d : Nat) : Char := Char.ofNat (48 + d)

/-- Fuel-driven decimal rendering (most significant digit first); the
fuel makes the definition structurally recursive so that it reduces
inside the kernel. -/
def natDigits : Nat → Nat → List Char
  | 0, _ => []
  | fuel + 1, n => if n < 10 then [digitChar n] else natDigits fuel (n / 10) ++ [digitChar (n % 10)]

/-- Decimal rendering of a natural number: the model of the JavaScript
number-to-string conversion `${n}` for the non-negative integers the
core produces (array indices, 1-based batch positions). -/
def natToString (n : Nat) : String := ⟨natDigits (n + 1) n⟩

/-- Value of a most-significant-first digit string, the model of
`parseInt(s, 10)` on an all-digit string. -/
def digitsToNat (cs : List Char) : Nat :=
  cs.foldl (fun n c => 10 * n + (c.toNat - 48)) 0

/-- JavaScript whitespace for `trim` (the characters occurring in JSON
localization text; the full JavaScript set also has exotic Unicode
spaces). -/
def jsWhitespace (c : Char) : Bool := c.isWhitespace

/-- JavaScript `String.prototype.trim`: strip leading and trailing
whitespace. -/
def jsTrim (s : String) : String :=
  ⟨((s.data.dropWhile jsWhitespace).reverse.dropWhile jsWhitespace).reverse⟩

/-- JavaScript `String.prototype.startsWith`. -/
def jsStartsWith (s pat : String) : Bool := pat.data.isPrefixOf s.data

/-! ## PathAddressableDocument: `JSONProcessor.extractTranslatableKeys`

`extractTranslatableKeys` (json-processor source, `traverse`) visits a
value: a string with non-empty trimmed content yields one `(path, value)`
entry, objects recurse with `path.key` (bare `key` at the root), arrays
recurse with `path[index]`; everything else is skipped.  The source
pushes `{key, value, path}` with `key = path`, so entries are modelled as
`(path, value)` pairs. -/

/-- Path extension for an object key: `currentPath ? currentPath + "." + key : key`. -/
def joinKey (currentPath key : String) : String :=
  if currentPath = "" then key else currentPath ++ "." ++ key

mutual

/-- `JSONProcessor.extractTranslatableKeys` (the inner `traverse`). -/
def extractTranslatableKeys : Json → String → List (String × String)
  | .str s, currentPath => if jsTrim s ≠ "" then [(currentPath, s)] else []
  | .obj fs, currentPath => extractFields fs currentPath
  | .arr xs, currentPath => extractElems xs currentPath 0
  | .null, _ => []
  | .bool _, _ => []
  | .num _, _ => []
termination_by structural j _ => j

/-- Object branch: `Object.keys(current).forEach(...)`. -/
def extractFields : JsonFields → String → List (String × String)
  | .nil, _ => []
  | .cons k v rest, currentPath =>
      extractTranslatableKeys v (joinKey currentPath k) ++ extractFields rest currentPath
termination_by structural fs _ => fs

/-- Array branch: `current.forEach((item, index) => ...)`. -/
def extractElems : JsonList → String → Nat → List (String × String)
  | .nil, _, _ => []
  | .cons x rest, currentPath, i =>
      extractTranslatableKeys x (currentPath ++ "[" ++ natToString i ++ "]")
        ++ extractElems rest currentPath (i + 1)
termination_by structural xs _ _ => xs

end

/-! ## PathAddressableDocument: `JSONProcessor.setNestedValue`

`setNestedValue(obj, path, value)` splits `path` on `"."`, walks all but
the last segment creating missing containers, and assigns at the last
segment; a segment matching the greedy regex `^(.+)\[(\d+)\]$` is treated
as `arrayKey[index]`. -/

/-- The greedy regex `^(.+)\[(\d+)\]$`: succeeds iff the segment ends in
`]`, the maximal digit run before it is non-empty and preceded by `[`,
and a non-empty remainder precedes that `[`; yields the remainder and
`parseInt` of the digits. -/
def parseArraySeg (s : String) : Option (String × Nat) :=
  match s.data.reverse with
  | [] => none
  | c :: rest =>
      if c = ']' then
        let ds := rest.takeWhile (fun c => c.isDigit)
        match rest.drop ds.length with
        | [] => none
        | d :: kr =>
            if d = '[' then
              if ds = [] ∨ kr = [] then none
              else some (⟨kr.reverse⟩, digitsToNat ds.reverse)
            else none
      else none

/-- JavaScript `String.prototype.split` with a single-character
separator (`path.split(".")`): `""` splits to `[""]`, separators at the
ends produce empty segments. -/
def jsSplit (s : String) (sep : Char) : List String :=
  (s.data.splitOn sep).map (fun cs => ⟨cs⟩)

/-- Is `k` the canonical decimal string of some array index?  JavaScript
array access `arr[k]` with a string key reads an element exactly when
`k` is such a canonical index. -/
def canonIndex (k : String) : Option Nat :=
  let n := digitsToNat k.data
  if k.data ≠ [] ∧ k.data.all (fun c => c.isDigit) ∧ natToString n = k then some n else none

/-- Property read `o[k]` with a string key.  Objects look bindings up,
arrays read elements at canonical indices, strings support character
access; built-in properties (such as `.length`) are not modelled — no
path built by the extraction pass reads them. -/
def getProp : Json → String → Option Json
  | .obj fs, k => fs.get k
  | .arr xs, k =>
      match canonIndex k with
      | some i => xs.get i
      | none => none
  | .str s, k =>
      match canonIndex k with
      | some i => (s.data.get? i).map (fun c => .str ⟨[c]⟩)
      | none => none
  | _, _ => none

/-- Property write `o[k] = v` with a string key, in strict mode.  On an
array, a non-canonical key stores a property `JSON.stringify` never
shows; the model drops it.  On a primitive the assignment throws. -/
def setProp : Json → String → Json → Except String Json
  | .obj fs, k, v => .ok (.obj (fs.set k v))
  | .arr xs, k, v =>
      match canonIndex k with
      | some i => .ok (.arr (xs.setPad i v))
      | none => .ok (.arr xs)
  | _, _, _ => .error "TypeError"

/-- Element read `a[index]` with a numeric index (`current[arrayKey][index]`);
on an object the numeric key is converted to its decimal string. -/
def getIdx (j : Json) (i : Nat) : Option Json :=
  match j with
  | .arr xs => xs.get i
  | .obj fs => fs.get (natToString i)
  | .str s => (s.data.get? i).map (fun c => .str ⟨[c]⟩)
  | _ => none

/-- Element write `a[index] = v` with a numeric index, in strict mode. -/
def setIdx (j : Json) (i : Nat) (v : Json) : Except String Json :=
  match j with
  | .arr xs => .ok (.arr (xs.setPad i v))
  | .obj fs => .ok (.obj (fs.set (natToString i) v))
  | _ => .error "TypeError"

/-- `!current[key]` guard: the existing value if truthy, else the
freshly created default. -/
def truthyOr (o : Option Json) (dflt : Json) : Json :=
  match o with
  | some j => if jsTruthy j then j else dflt
  | none => dflt

/-- The walk of `setNestedValue` over the split segments.  Intermediate
segments replace a falsy slot by `[]`/`{}` and descend; the last segment
assigns.  The persistent rendering computes the updated child first and
writes it back; a `TypeError` the source would raise at the earlier
in-place assignment surfaces from the same walk as the same `.error`
result. -/
def setNestedGo : Json → List String → Json → Except String Json
  | cur, [], _ => .ok cur
  | cur, [lastKey], value =>
      match parseArraySeg lastKey with
      | some (arrayKey, index) =>
          let a := truthyOr (getProp cur arrayKey) (.arr .nil)
          match setIdx a index value with
          | .ok a2 => setProp cur arrayKey a2
          | .error e => .error e
      | none => setProp cur lastKey value
  | cur, key :: next :: rest, value =>
      match parseArraySeg key with
      | some (arrayKey, index) =>
          let a := truthyOr (getProp cur arrayKey) (.arr .nil)
          let elem := truthyOr (getIdx a index) (.obj .nil)
          match setNestedGo elem (next :: rest) value with
          | .ok elem2 =>
              match setIdx a index elem2 with
              | .ok a2 => setProp cur arrayKey a2
              | .error e => .error e
          | .error e => .error e
      | none =>
          let child := truthyOr (getProp cur key) (.obj .nil)
          match setNestedGo child (next :: rest) value with
          | .ok child2 => setProp cur key child2
          | .error e => .error e

/-- `JSONProcessor.setNestedValue`. -/
def setNestedValue (doc : Json) (path : String) (value : String) : Except String Json :=
  setNestedGo doc (jsSplit path '.') (.str value)

/-! ## Document Reassembler: `JSONProcessor.applyTranslations` -/

/-- One entry of the `errors` list `applyTranslations` returns. -/
structure JSONProcessingError where
  key : String
  error : String
  deriving Repr, DecidableEq

mutual

/-- `JSON.parse(JSON.stringify(x))`: a structural copy of the document. -/
def deepClone : Json → Json
  | .null => .null
  | .bool b => .bool b
  | .num n => .num n
  | .str s => .str s
  | .arr xs => .arr (deepCloneList xs)
  | .obj fs => .obj (deepCloneFields fs)

/-- Clone of an array's elements. -/
def deepCloneList : JsonList → JsonList
  | .nil => .nil
  | .cons x rest => .cons (deepClone x) (deepCloneList rest)

/-- Clone of an object's fields. -/
def deepCloneFields : JsonFields → JsonFields
  | .nil => .nil
  | .cons k v rest => .cons k (deepClone v) (deepCloneFields rest)

end

/-- The body of `applyTranslations`'s `forEach` loop: try the
assignment; on an exception record an error keyed by the path and keep
the document as it was. -/
def applyStep (acc : Json × List JSONProcessingError) (kv : String × String) :
    Json × List JSONProcessingError :=
  match setNestedValue acc.1 kv.1 kv.2 with
  | .ok d => (d, acc.2)
  | .error e => (acc.1, acc.2 ++ [⟨kv.1, "Failed to apply translation: " ++ e⟩])

/-- `JSONProcessor.applyTranslations`: deep-clones the original, then
assigns every translation at its path in map insertion order; a failing
assignment is recorded as an error keyed by its path and the loop
continues. -/
def applyTranslations (originalJSON : Json) (translations : List (String × String)) :
    Json × List JSONProcessingError :=
  translations.foldl applyStep (deepClone originalJSON, [])

/-! ## Translation backend and shared orchestration state -/

/-- `TranslationResult` of the translator interface. -/
structure TranslationResult where
  success : Bool
  translatedValue : String
  error : Option String := none
  deriving Repr, DecidableEq

/-- The configuration fields the orchestrators read (`TranslationConfig`
restricted to the language pair; provider, model and API key only select
the backend). -/
structure TranslationConfig where
  targetLanguage : String
  sourceLanguage : Option String := none
  deriving Repr, DecidableEq

/-- The backend capability `translator.translateKey(key, value)`,
modelled as a pure function of the context key and the source text.  The
backend contract returns errors rather than throwing, so the oracle is
total. -/
def Backend : Type := String → String → TranslationResult

/-- The in-memory fingerprint cache (`Map<string, string>` in insertion
order). -/
abbrev Cache := List (String × String)

/-- The `(key, value)` arguments of the backend calls a run dispatches,
in dispatch order; used to state how often the backend is invoked. -/
abbrev CallLog := List (String × String)

/-- First binding of a key (`Map.prototype.get`). -/
def assocGet {β : Type} : List (String × β) → String → Option β
  | [], _ => none
  | (k, v) :: rest, key => if k = key then some v else assocGet rest key

/-- `Map.prototype.set`: an existing key keeps its position, a new key
is appended. -/
def assocSet {β : Type} : List (String × β) → String → β → List (String × β)
  | [], key, v => [(key, v)]
  | (k, v') :: rest, key, v =>
      if k = key then (key, v) :: rest else (k, v') :: assocSet rest key v

/-- `${sourceLang || "auto"}->${targetLang}:${value}` — the cache key
built by `ParallelTranslator.getCacheKey` and `BatchTranslator.getCacheKey`
(identical code in both classes).  `||` also falls back on the falsy
empty string. -/
def getCacheKey (value targetLang : String) (sourceLang : Option String) : String :=
  (match sourceLang with
   | none => "auto"
   | some s => if s = "" then "auto" else s) ++ "->" ++ targetLang ++ ":" ++ value

/-- The `if (cached)` test: a hit requires a present, truthy (non-empty)
cached value. -/
def cacheHit (cache : Cache) (k : String) : Option String :=
  match assocGet cache k with
  | some v => if v = "" then none else some v
  | none => none

/-- `BatchTranslationItem` / `ParallelTranslationItem`: `{key, value, id}`
(the two interfaces are identical). -/
structure TranslationItem where
  key : String
  value : String
  id : String
  deriving Repr, DecidableEq

/-- `BatchTranslationResult` / `ParallelTranslationResult`. -/
structure TranslationOutcome where
  id : String
  key : String
  success : Bool
  translatedValue : String
  error : Option String := none
  deriving Repr, DecidableEq

/-- `RateLimitConfig`. -/
structure RateLimitConfig where
  requestsPerMinute : Nat
  maxConcurrentRequests : Nat
  maxBatchSize : Nat
  deriving Repr, DecidableEq

/-! ## Rate Governor: `waitForRateLimit`

Both translators implement the same `waitForRateLimit`: read
`lastRequestTime`, and if less than `60000 / requestsPerMinute`
milliseconds have passed, sleep exactly the remaining delta; then record
`Date.now()` as the new `lastRequestTime` and as a dispatch timestamp.
The sleep is an `await` suspension point: the read of `lastRequestTime`
and its later write are not atomic. -/

/-- `(60 * 1000) / requestsPerMinute` in milliseconds (exact for every
rate that divides 60000, which includes all built-in defaults). -/
def minInterval (requestsPerMinute : Nat) : Nat := 60000 / requestsPerMinute

/-- The time at which a caller that read `lastRequestTime = last` at
time `now` dispatches: `now` itself, or `last + minInterval` after
sleeping exactly the remaining delta. -/
def waitDeadline (rpm last now : Nat) : Nat :=
  if now - last < minInterval rpm then last + minInterval rpm else now

/-- Serialized callers: each caller reads the `lastRequestTime` the
previous caller wrote (the single-worker schedule).  Returns the
dispatch timestamps. -/
def rateDispatch (rpm : Nat) : List Nat → Nat → List Nat
  | [], _ => []
  | now :: rest, last =>
      let d := waitDeadline rpm last now
      d :: rateDispatch rpm rest d

/-- Number of dispatches inside the trailing 60-second window `(t - 60000, t]`
(the same strict-left convention as the source's
`requestTimes.filter((time) => time > oneMinuteAgo)`). -/
def windowCount (dispatchTimes : List Nat) (t : Nat) : Nat :=
  ((dispatchTimes.filter (fun x => decide (t < x + 60000))).filter (fun x => decide (x ≤ t))).length

/-- `callers` concurrent invocations of `waitForRateLimit` that all read
`lastRequestTime = last` at time `now` — the event-loop interleaving in
which every caller reaches its read before the first caller wakes from
its sleep and writes.  Each computes the same deadline and dispatches at
it. -/
def herdDispatchTimes (rpm last now callers : Nat) : List Nat :=
  List.replicate callers (waitDeadline rpm last now)

/-! ## ParallelTranslator

`translateParallel` drains a shared queue with up to
`maxConcurrentRequests` workers.  The deterministic model below executes
the single-worker schedule (`maxConcurrentRequests = 1`), under which the
drive loop is sequential: guard `while (queue.length > 0 && !cancelled)`,
dequeue, `processItem`, push the outcome.  Cancellation is an external
`cancel()` call; the model clocks each iteration at two instants — the
loop guard at `2 * t`, the post-`waitForRateLimit` check inside
`processItem` at `2 * t + 1` — and takes the instant from which the flag
is set as a parameter. -/

/-- Whether the cancellation flag, set from instant `c` on, is visible
at instant `t`. -/
def flagAt (cancelAt : Option Nat) (t : Nat) : Bool :=
  match cancelAt with
  | some c => c ≤ t
  | none => false

/-- `ParallelTranslator.processItem`: consult the cache (a hit returns at
once, before any cancellation check); on a miss wait for the rate limit,
then — if cancellation became visible during the wait — fail with
`"Translation cancelled"` without calling the backend; otherwise call the
backend and populate the cache on success.  Returns the outcome, the new
cache, and the backend calls made. -/
def processItem (backend : Backend) (cfg : TranslationConfig)
    (cancelledDuringWait : Bool) (cache : Cache) (item : TranslationItem) :
    TranslationOutcome × Cache × CallLog :=
  let ck := getCacheKey item.value cfg.targetLanguage cfg.sourceLanguage
  match cacheHit cache ck with
  | some cached =>
      ({ id := item.id, key := item.key, success := true, translatedValue := cached }, cache, [])
  | none =>
      if cancelledDuringWait then
        ({ id := item.id, key := item.key, success := false, translatedValue := "",
           error := some "Translation cancelled" }, cache, [])
      else
        let result := backend item.key item.value
        let cache2 := if result.success then assocSet cache ck result.translatedValue else cache
        ({ id := item.id, key := item.key, success := result.success,
           translatedValue := result.translatedValue, error := result.error }, cache2,
         [(item.key, item.value)])

/-- The single-worker drive loop of `translateParallel` (`processNext`):
outcomes are pushed in processing order; once the loop guard observes the
cancellation flag the remaining queue is abandoned — those items receive
no outcome. -/
def runLoop (backend : Backend) (cfg : TranslationConfig) (cancelAt : Option Nat) :
    List TranslationItem → Nat → Cache → List TranslationOutcome × Cache × CallLog
  | [], _, cache => ([], cache, [])
  | item :: rest, t, cache =>
      if flagAt cancelAt (2 * t) then ([], cache, [])
      else
        let pr := processItem backend cfg (flagAt cancelAt (2 * t + 1)) cache item
        let tail := runLoop backend cfg cancelAt rest (t + 1) pr.2.1
        (pr.1 :: tail.1, tail.2.1, pr.2.2 ++ tail.2.2)

/-- The comparison key of the final
`results.sort((a, b) => aIndex - bIndex)`: the index of the first input
item with the outcome's id, `-1` when absent (`findIndex`). -/
def inputIndex (items : List TranslationItem) (r : TranslationOutcome) : Int :=
  match items.findIdx? (fun it => it.id = r.id) with
  | some i => (i : Int)
  | none => -1

/-- The final reordering of `translateParallel`: a stable sort of the
completion-ordered outcomes by input index (`Array.prototype.sort` is
stable). -/
def sortByInputIndex (items : List TranslationItem) (results : List TranslationOutcome) :
    List TranslationOutcome :=
  results.mergeSort (fun a b => decide (inputIndex items a ≤ inputIndex items b))

/-- `ParallelTranslator.translateParallel` under the single-worker
schedule: run the drive loop, then sort the outcomes back to input
order. -/
def translateParallelRun (backend : Backend) (cfg : TranslationConfig)
    (cancelAt : Option Nat) (items : List TranslationItem) :
    List TranslationOutcome × Cache × CallLog :=
  let (rs, cache, log) := runLoop backend cfg cancelAt items 0 []
  (sortByInputIndex items rs, cache, log)

/-- The items `ParallelTranslator.retryFailed` re-submits: the failed
outcomes, rebuilt with
`value: "" // We need to pass the original value - this would need to be stored`. -/
def retryItems (previousResults : List TranslationOutcome) : List TranslationItem :=
  (previousResults.filter (fun r => !r.success)).map
    (fun r => { id := r.id, key := r.key, value := "" })

/-- The interleaving of two workers of `translateParallel` that each
process one item concurrently and both pass the cache check before
either backend call returns: worker 1 reads the cache, worker 2 reads
the (still unpopulated) cache, worker 1 calls the backend and populates,
worker 2 calls the backend and populates.  Returns the backend calls
made and the final cache. -/
def concurrentPairCalls (backend : Backend) (cfg : TranslationConfig)
    (cache0 : Cache) (item1 item2 : TranslationItem) : CallLog × Cache :=
  let ck1 := getCacheKey item1.value cfg.targetLanguage cfg.sourceLanguage
  let ck2 := getCacheKey item2.value cfg.targetLanguage cfg.sourceLanguage
  let hit1 := cacheHit cache0 ck1
  let hit2 := cacheHit cache0 ck2
  let (log1, cache1) :=
    match hit1 with
    | some _ => ([], cache0)
    | none =>
        let r1 := backend item1.key item1.value
        ([(item1.key, item1.value)],
         if r1.success then assocSet cache0 ck1 r1.translatedValue else cache0)
  let (log2, cache2) :=
    match hit2 with
    | some _ => ([], cache1)
    | none =>
        let r2 := backend item2.key item2.value
        ([(item2.key, item2.value)],
         if r2.success then assocSet cache1 ck2 r2.translatedValue else cache1)
  (log1 ++ log2, cache2)

/-! ## BatchTranslator

`translateBatch` groups items into batches (sorted by section key,
chunked to `maxBatchSize`) and processes them; the deterministic model
executes the single-worker schedule, under which batches complete in
dispatch order and `allResults.push(...results)` appends per batch. -/

/-- Lexicographic code-point comparison of strings, the model of the
`localeCompare`-based sort comparator (the two orders agree on the plain
ASCII section keys considered here). -/
def charListLe : List Char → List Char → Bool
  | [], _ => true
  | _ :: _, [] => false
  | a :: as, b :: bs => if a = b then charListLe as bs else decide (a < b)

/-- The section key of `groupItemsIntoBatches`:
`a.key.split(".")[0] || a.key.split("[")[0]` — the fallback only fires
when the first dot-segment is the falsy empty string. -/
def sectionKey (key : String) : String :=
  let h := (jsSplit key '.').headD ""
  if h = "" then (jsSplit key '[').headD "" else h

/-- Fixed-size chunking (`for (i = 0; i < length; i += maxBatchSize) slice(...)`);
driven by fuel so that it is structural — with `maxBatchSize = 0` the
source loop would not terminate, and every configured batch size is
positive. -/
def chunkFuel {α : Type} : Nat → List α → Nat → List (List α)
  | 0, _, _ => []
  | _, [], _ => []
  | fuel + 1, xs, k => xs.take k :: chunkFuel fuel (xs.drop k) k

/-- `BatchTranslator.groupItemsIntoBatches`: stable sort by section key
(`localeCompare` modelled as the code-point order, with which it agrees
on the keys considered here), then chunk. -/
def groupItemsIntoBatches (maxBatchSize : Nat) (items : List TranslationItem) :
    List (List TranslationItem) :=
  let sortedItems := items.mergeSort (fun a b => charListLe (sectionKey a.key).data (sectionKey b.key).data)
  chunkFuel sortedItems.length sortedItems maxBatchSize

/-- `BatchTranslator.createBatchPrompt`. -/
def createBatchPrompt (cfg : TranslationConfig) (items : List TranslationItem) : String :=
  let itemsText := String.intercalate "\n"
    (items.enum.map (fun p => natToString (p.1 + 1) ++ ". \"" ++ p.2.value ++ "\""))
  "Translate the following " ++ natToString items.length ++ " text strings to "
    ++ cfg.targetLanguage
    ++ ". Return ONLY the translations in the same order, numbered 1-"
    ++ natToString items.length ++ ", one per line:\n\n" ++ itemsText ++ "\n\nTranslations:"

/-- `String.prototype.replace` with a plain-string pattern: remove the
first occurrence. -/
def removeFirstSub (pat : List Char) : List Char → List Char
  | [] => []
  | c :: cs =>
      if pat.isPrefixOf (c :: cs) then (c :: cs).drop pat.length else c :: removeFirstSub pat cs

/-- `line.replace(expectedPrefix, "")`. -/
def replaceFirst (s pat : String) : String := ⟨removeFirstSub pat.data s.data⟩

/-- `translation.replace(/^["']|["']$/g, "")`: drop one leading and one
trailing quote character. -/
def stripOuterQuotes (s : String) : String :=
  let l := match s.data with
    | c :: cs => if c = '"' ∨ c = Char.ofNat 39 then cs else s.data
    | [] => []
  let l2 := match l.getLast? with
    | some c => if c = '"' ∨ c = Char.ofNat 39 then l.dropLast else l
    | none => l
  ⟨l2⟩

/-- `BatchTranslator.parseBatchResponse`: split the response into
non-blank lines; for each expected 1-based position take the first line
whose trimmed form starts with `"{i}."`, strip the prefix, surrounding
whitespace and quotes; a missing line yields `""`. -/
def parseBatchResponse (response : String) (itemCount : Nat) : List String :=
  let lines := (jsSplit response '\n').filter (fun l => jsTrim l ≠ "")
  (List.range itemCount).map (fun i =>
    let expected := natToString (i + 1) ++ "."
    match lines.find? (fun l => jsStartsWith (jsTrim l) expected) with
    | some line => stripOuterQuotes (jsTrim (replaceFirst line expected))
    | none => "")

/-- The cache pass at the head of `processBatch`: cached items become
successful results at once (in batch order), the rest are collected as
`uncachedItems`. -/
def cachedSplit (cfg : TranslationConfig) (cache : Cache) :
    List TranslationItem → List TranslationOutcome × List TranslationItem
  | [] => ([], [])
  | it :: rest =>
      let tail := cachedSplit cfg cache rest
      match cacheHit cache (getCacheKey it.value cfg.targetLanguage cfg.sourceLanguage) with
      | some v =>
          ({ id := it.id, key := it.key, success := true, translatedValue := v } :: tail.1, tail.2)
      | none => (tail.1, it :: tail.2)

/-- The per-position loop of `processBatch`'s success branch: a truthy
(non-empty) parsed translation is cached and yields a success; a falsy
one yields a failed outcome with
`"Failed to parse batch translation result"` — no further backend call
is made for it. -/
def applyParsedTranslations (cfg : TranslationConfig) :
    List TranslationItem → List String → Cache → List TranslationOutcome × Cache
  | [], _, cache => ([], cache)
  | it :: rest, tr :: trs, cache =>
      if tr ≠ "" then
        let cache2 := assocSet cache (getCacheKey it.value cfg.targetLanguage cfg.sourceLanguage) tr
        let (res, cache3) := applyParsedTranslations cfg rest trs cache2
        ({ id := it.id, key := it.key, success := true, translatedValue := tr } :: res, cache3)
      else
        let (res, cache2) := applyParsedTranslations cfg rest trs cache
        ({ id := it.id, key := it.key, success := false, translatedValue := "",
           error := some "Failed to parse batch translation result" } :: res, cache2)
  | it :: rest, [], cache =>
      let (res, cache2) := applyParsedTranslations cfg rest [] cache
      ({ id := it.id, key := it.key, success := false, translatedValue := "",
         error := some "Failed to parse batch translation result" } :: res, cache2)

/-- The per-item fallback loop of `processBatch` (one backend call per
unresolved item), entered when the batch call itself fails. -/
def individualFallback (backend : Backend) (cfg : TranslationConfig) :
    List TranslationItem → Cache → List TranslationOutcome × Cache × CallLog
  | [], cache => ([], cache, [])
  | it :: rest, cache =>
      let r := backend it.key it.value
      let cache2 :=
        if r.success then
          assocSet cache (getCacheKey it.value cfg.targetLanguage cfg.sourceLanguage)
            r.translatedValue
        else cache
      let (res, cache3, log) := individualFallback backend cfg rest cache2
      ({ id := it.id, key := it.key, success := r.success, translatedValue := r.translatedValue,
         error := r.error } :: res, cache3, (it.key, it.value) :: log)

/-- `BatchTranslator.processBatch`: serve cache hits, then make one
backend call for the whole batch; on its success decompose the response
per position (`applyParsedTranslations`), on its failure fall back to
individual calls.  Returns the outcomes, the new cache and the backend
calls made. -/
def processBatch (backend : Backend) (cfg : TranslationConfig) (cache : Cache)
    (batch : List TranslationItem) : List TranslationOutcome × Cache × CallLog :=
  let cachedResults := (cachedSplit cfg cache batch).1
  let uncachedItems := (cachedSplit cfg cache batch).2
  if uncachedItems.isEmpty then (cachedResults, cache, [])
  else
    let batchPrompt := createBatchPrompt cfg uncachedItems
    let batchResult := backend ("batch") batchPrompt
    if batchResult.success then
      let ap := applyParsedTranslations cfg uncachedItems
        (parseBatchResponse batchResult.translatedValue uncachedItems.length) cache
      (cachedResults ++ ap.1, ap.2, [(("batch"), batchPrompt)])
    else
      let fb := individualFallback backend cfg uncachedItems cache
      (cachedResults ++ fb.1, fb.2.1, (("batch"), batchPrompt) :: fb.2.2)

/-- Sequential processing of the batch list (`processNextBatch` chain
under the single-worker schedule): `allResults.push(...results)` in
batch completion order. -/
def processBatches (backend : Backend) (cfg : TranslationConfig) :
    List (List TranslationItem) → Cache → List TranslationOutcome × Cache × CallLog
  | [], cache => ([], cache, [])
  | b :: rest, cache =>
      let (res, cache2, log) := processBatch backend cfg cache b
      let (res2, cache3, log2) := processBatches backend cfg rest cache2
      (res ++ res2, cache3, log ++ log2)

/-- `BatchTranslator.translateBatch` under the single-worker schedule:
group into batches, process them in order, return the concatenated
outcomes — there is no final reordering to input order. -/
def translateBatchRun (backend : Backend) (cfg : TranslationConfig)
    (rl : RateLimitConfig) (items : List TranslationItem) :
    List TranslationOutcome × Cache × CallLog :=
  processBatches backend cfg (groupItemsIntoBatches rl.maxBatchSize items) []

/-! ## Well-formed documents and path segments for the round-trip law

The path grammar of the extraction pass is invertible by
`setNestedValue`'s parser only on documents whose object keys are free of
the meta-characters `.` and `[`, and which never nest an array directly
inside an array (such a leaf's path would carry two adjacent bracket
groups, which the greedy segment regex mis-parses).  `goodDoc` captures
this class; the round-trip law is proved on it and refuted outside it. -/

/-- A key the path grammar can reproduce: non-empty and free of `.` and
`[`. -/
def goodKey (k : String) : Bool :=
  k ≠ "" && k.data.all (fun c => c ≠ '.' && c ≠ '[')

/-- Whether a key occurs among the fields. -/
def hasKey : JsonFields → String → Bool
  | .nil, _ => false
  | .cons k _ rest, key => k = key || hasKey rest key

mutual

/-- Values on which the round-trip law holds, in object position. -/
def goodVal : Json → Bool
  | .obj fs => goodFields fs
  | .arr xs => goodElems xs
  | .null => true
  | .bool _ => true
  | .num _ => true
  | .str _ => true
termination_by structural j => j

/-- Fields with good, pairwise distinct keys and good values. -/
def goodFields : JsonFields → Bool
  | .nil => true
  | .cons k v rest => goodKey k && !hasKey rest k && goodVal v && goodFields rest
termination_by structural fs => fs

/-- Array elements that are not themselves arrays, and are good. -/
def goodElems : JsonList → Bool
  | .nil => true
  | .cons (.arr _) _ => false
  | .cons x rest => goodVal x && goodElems rest
termination_by structural xs => xs

end

/-- A document the round-trip law is proved on: an object of good
fields (the shape of a localization file). -/
def goodDoc : Json → Bool
  | .obj fs => goodFields fs
  | _ => false

/-- The roots on which the round-trip law holds: an object of good
fields; any array (every array-root path starts with `[`, which
`setNestedValue` can only write as a non-index array property that
`JSON.stringify` never shows, so nothing changes and nothing throws);
or a leaf that extracts nothing. -/
def roundTripSafe : Json → Bool
  | .obj fs => goodFields fs
  | .arr _ => true
  | .str s => jsTrim s == ""
  | .null => true
  | .bool _ => true
  | .num _ => true

/-- One dot-separated chunk of a path built by the extraction pass: a
plain object key, or an object key immediately followed by one array
index. -/
inductive Seg where
  | fld (k : String) : Seg
  | idx (k : String) (i : Nat) : Seg
  deriving DecidableEq

/-- The text of one chunk. -/
def Seg.render : Seg → String
  | .fld k => k
  | .idx k i => k ++ "[" ++ natToString i ++ "]"

/-- The object key of a chunk. -/
def Seg.key : Seg → String
  | .fld k => k
  | .idx k _ => k

/-- A chunk whose key the grammar can reproduce. -/
def goodSeg (sg : Seg) : Bool := goodKey sg.key

/-- Path extension by one chunk, exactly as the extraction pass builds
it: the key via `joinKey`, an index appended bracketed. -/
def appendSeg (p : String) : Seg → String
  | .fld k => joinKey p k
  | .idx k i => joinKey p k ++ "[" ++ natToString i ++ "]"

/-- The path of a leaf reached from prefix `p` through the chunks. -/
def renderPath (p : String) (segs : List Seg) : String :=
  segs.foldl appendSeg p

/-- `SegsAt cur segs t`: from `cur`, following the chunks leads to `t`
(a plain chunk selects an object field, an indexed chunk selects an
object field holding an array and then its element). -/
inductive SegsAt : Json → List Seg → Json → Prop where
  | nil (j : Json) : SegsAt j [] j
  | fld {fs : JsonFields} {k : String} {c : Json} {segs : List Seg} {t : Json} :
      JsonFields.get fs k = some c → SegsAt c segs t →
      SegsAt (.obj fs) (Seg.fld k :: segs) t
  | idx {fs : JsonFields} {k : String} {xs : JsonList} {i : Nat} {c : Json}
      {segs : List Seg} {t : Json} :
      JsonFields.get fs k = some (.arr xs) → JsonList.get xs i = some c → SegsAt c segs t →
      SegsAt (.obj fs) (Seg.idx k i :: segs) t

/-- What extraction soundness yields for one extracted entry of a good
value: a chunk list addressing the entry's value, rendering the entry's
path.  From an array the entry additionally fixes the element the chunks
start from (an array is never addressed by chunks directly — its path
component fuses with the enclosing object key's chunk). -/
def ExtractedEntrySound : Json → String → String × String → Prop
  | .arr xs, p, e =>
      ∃ j c segs, JsonList.get xs j = some c ∧ (∀ sg ∈ segs, goodSeg sg = true) ∧
        SegsAt c segs (.str e.2) ∧ jsTrim e.2 ≠ "" ∧
        e.1 = renderPath (p ++ "[" ++ natToString j ++ "]") segs
  | cur, p, e =>
      ∃ segs, (∀ sg ∈ segs, goodSeg sg = true) ∧ SegsAt cur segs (.str e.2) ∧
        jsTrim e.2 ≠ "" ∧ e.1 = renderPath p segs

/-! # Theorems -/

/-- C10: the cache-key derivation is not injective — the distinct
triples (sourceText `"x"`, target `"b:c"`) and (sourceText `"c:x"`,
target `"b"`), both with absent source language, produce the same key,
and a translation cached under the first is returned as a hit for the
second. -/
theorem cacheKey_collision :
    getCacheKey ("x") ("b:c") none = getCacheKey ("c:x") ("b") none
    ∧ (("x", "b:c") : String × String) ≠ ("c:x", "b")
    ∧ cacheHit (assocSet [] (getCacheKey ("x") ("b:c") none) ("Equis"))
        (getCacheKey ("c:x") ("b") none) = some ("Equis") := by
  refine ⟨rfl, by decide, rfl⟩

/-- C6: `retryFailed` rebuilds the re-submitted items with an empty
`value` (the source's own comment:
`// We need to pass the original value - this would need to be stored`),
so for an item whose original source text was `"Hello"` the retry run
sends the backend the empty string, not `"Hello"`. -/
theorem retryFailed_sends_empty_sourceText :
    retryItems [{ id := "1", key := "greeting", success := false, translatedValue := "",
                  error := some ("HTTP 500") }]
      = [{ key := "greeting", value := "", id := "1" }]
    ∧ (translateParallelRun (fun _ v => { success := true, translatedValue := v })
        { targetLanguage := "es" } none
        (retryItems [{ id := "1", key := "greeting", success := false, translatedValue := "",
                       error := some ("HTTP 500") }])).2.2 = [("greeting", "")] := by
  refine ⟨by decide, by decide⟩

/-- C1 (counterexample): the round-trip law fails on a document whose
object key contains a `.` (the path `"a.b"` is re-parsed as two
segments, materializing a spurious nested object), and on a document
with an array nested directly inside an array (the path `"a[0][0]"`'s
first bracket group is swallowed by the greedy key regex, materializing
a spurious `"a[0]"` field). -/
theorem roundTrip_fails_on_dotted_key :
    (applyTranslations (.obj (.cons "a.b" (.str "x") .nil))
        (extractTranslatableKeys (.obj (.cons "a.b" (.str "x") .nil)) "")).1
      ≠ .obj (.cons "a.b" (.str "x") .nil)
    ∧ (applyTranslations (.obj (.cons "a" (.arr (.cons (.arr (.cons (.str "x") .nil)) .nil)) .nil))
        (extractTranslatableKeys
          (.obj (.cons "a" (.arr (.cons (.arr (.cons (.str "x") .nil)) .nil)) .nil)) "")).1
      ≠ .obj (.cons "a" (.arr (.cons (.arr (.cons (.str "x") .nil)) .nil)) .nil) := by
  refine ⟨by decide, by decide⟩

unseal List.merge List.mergeSort in
/-- C3 (counterexample): `translateBatch` returns outcomes in batch
completion order — for the input `[id1 ("z"), id2 ("a")]` with batch
size 1 the batches are sorted by section key, so the returned order is
`[id2, id1]`, not the input order `[id1, id2]`. -/
theorem batch_outcome_order_mismatch :
    ((translateBatchRun (fun _ _ => { success := true, translatedValue := "1. X" })
        { targetLanguage := "es" }
        { requestsPerMinute := 60, maxConcurrentRequests := 1, maxBatchSize := 1 }
        [{ key := "z", value := "Zebra", id := "id1" },
         { key := "a", value := "Apple", id := "id2" }]).1.map (fun r => r.id))
      = ["id2", "id1"]
    ∧ ([{ key := "z", value := "Zebra", id := "id1" },
        { key := "a", value := "Apple", id := "id2" }].map
          (fun it : TranslationItem => it.id)) = ["id1", "id2"] := by
  refine ⟨by decide, by decide⟩

unseal List.merge List.mergeSort in
/-- C4 (counterexample): a run of two items cancelled after the first
item completes resolves with a single outcome — the still-queued second
item is silently dropped rather than reported as a failure with a
"cancelled" error. -/
theorem cancelled_run_drops_queued_items :
    ((translateParallelRun (fun _ v => { success := true, translatedValue := v })
        { targetLanguage := "es" } (some 2)
        [{ key := "z", value := "Zebra", id := "id1" },
         { key := "a", value := "Apple", id := "id2" }]).1.map (fun r => r.id))
      = ["id1"]
    ∧ ([{ key := "z", value := "Zebra", id := "id1" },
        { key := "a", value := "Apple", id := "id2" }] : List TranslationItem).length = 2 := by
  refine ⟨by decide, by decide⟩

/-- C5 (counterexample): when the batch backend call succeeds but the
response lacks the line numbered `"1."`, the single item's outcome is a
hard failure carrying `"Failed to parse batch translation result"` and
exactly one backend call is made — no individual fallback happens, even
though the backend would have translated the item individually. -/
theorem parse_empty_yields_failed_outcome :
    ((processBatch
        (fun k _ => if k = "batch" then { success := true, translatedValue := "2. Hola" }
                    else { success := true, translatedValue := "Hola" })
        { targetLanguage := "es" } []
        [{ key := "greeting", value := "Hello", id := "1" }]).1
      = [{ id := "1", key := "greeting", success := false, translatedValue := "",
           error := some ("Failed to parse batch translation result") }])
    ∧ ((processBatch
        (fun k _ => if k = "batch" then { success := true, translatedValue := "2. Hola" }
                    else { success := true, translatedValue := "Hola" })
        { targetLanguage := "es" } []
        [{ key := "greeting", value := "Hello", id := "1" }]).2.2.length = 1) := by
  refine ⟨by decide, by decide⟩

/-- C7 (counterexample): two concurrently dispatched items with the same
source text `"Save"` (and the same fixed language pair) both pass the
cache check before either backend call returns, so the backend is
invoked twice for one triple. -/
theorem concurrent_duplicate_backend_calls :
    ((concurrentPairCalls (fun _ _ => { success := true, translatedValue := "Guardar" })
        { targetLanguage := "es" } []
        { key := "buttons.save", value := "Save", id := "1" }
        { key := "actions.save", value := "Save", id := "2" }).1
      = [("buttons.save", "Save"), ("actions.save", "Save")]) := by
  decide

/-- C8 (counterexample): with `requestsPerMinute = 1`, two callers that
enter `waitForRateLimit` concurrently both read `lastRequestTime = 0`,
compute the same deadline and dispatch together at `t = 60000`; the
trailing 60-second window then holds 2 dispatches, exceeding the
configured rate of 1. -/
theorem concurrent_rate_wait_burst :
    windowCount (herdDispatchTimes 1 0 0 2) 60000 = 2 ∧ (1 : Nat) < 2 := by
  refine ⟨by decide, by decide⟩

/-! ### Extraction: C2 -/

mutual

/-- Every entry extracted from a value has non-empty trimmed text. -/
theorem extract_entry_trim : ∀ (cur : Json) (p : String) (e : String × String),
    e ∈ extractTranslatableKeys cur p → jsTrim e.2 ≠ ""
  | .str s, p, e, h => by
      rw [extractTranslatableKeys] at h
      split at h
      · next hs => rcases List.mem_singleton.mp h with rfl; exact hs
      · exact absurd h (List.not_mem_nil e)
  | .obj fs, p, e, h => extractFields_entry_trim fs p e (by rwa [extractTranslatableKeys] at h)
  | .arr xs, p, e, h => extractElems_entry_trim xs p 0 e (by rwa [extractTranslatableKeys] at h)
  | .null, p, e, h => absurd (by rwa [extractTranslatableKeys] at h) (List.not_mem_nil e)
  | .bool _, p, e, h => absurd (by rwa [extractTranslatableKeys] at h) (List.not_mem_nil e)
  | .num _, p, e, h => absurd (by rwa [extractTranslatableKeys] at h) (List.not_mem_nil e)
termination_by structural cur _ _ _ => cur

/-- Every entry extracted from an object's fields has non-empty trimmed
text. -/
theorem extractFields_entry_trim : ∀ (fs : JsonFields) (p : String) (e : String × String),
    e ∈ extractFields fs p → jsTrim e.2 ≠ ""
  | .nil, p, e, h => absurd (by rwa [extractFields] at h) (List.not_mem_nil e)
  | .cons k v rest, p, e, h => by
      rw [extractFields] at h
      rcases List.mem_append.mp h with h1 | h2
      · exact extract_entry_trim v (joinKey p k) e h1
      · exact extractFields_entry_trim rest p e h2
termination_by structural fs _ _ _ => fs

/-- Every entry extracted from an array's elements has non-empty
trimmed text. -/
theorem extractElems_entry_trim : ∀ (xs : JsonList) (p : String) (i : Nat) (e : String × String),
    e ∈ extractElems xs p i → jsTrim e.2 ≠ ""
  | .nil, p, i, e, h => absurd (by rwa [extractElems] at h) (List.not_mem_nil e)
  | .cons x rest, p, i, e, h => by
      rw [extractElems] at h
      rcases List.mem_append.mp h with h1 | h2
      · exact extract_entry_trim x (p ++ "[" ++ natToString i ++ "]") e h1
      · exact extractElems_entry_trim rest p (i + 1) e h2
termination_by structural xs _ _ _ _ => xs

end

/-- C2: `extractTranslatableKeys` yields exactly the non-empty-trimmed
string leaves, in traversal order: the spec's example document extracts
to exactly `[("a","Hello"), ("b.c","World"), ("d[0]","x")]`; a string
leaf yields one entry iff its trimmed content is non-empty; `null`,
booleans and numbers yield nothing; object fields are visited in
enumeration order with path `parent.key` (`joinKey`), array elements by
index with path `parent[index]`; and every extracted entry's value has
non-empty trimmed content. -/
theorem extractTranslatableKeys_spec :
    extractTranslatableKeys
        (.obj (.cons "a" (.str "Hello")
          (.cons "b" (.obj (.cons "c" (.str "World") .nil))
            (.cons "d" (.arr (.cons (.str "x") (.cons (.str "") .nil))) .nil)))) ""
      = [("a", "Hello"), ("b.c", "World"), ("d[0]", "x")]
    ∧ (∀ s p, extractTranslatableKeys (.str s) p = if jsTrim s ≠ "" then [(p, s)] else [])
    ∧ (∀ p, extractTranslatableKeys .null p = []
        ∧ (∀ b, extractTranslatableKeys (.bool b) p = [])
        ∧ (∀ n, extractTranslatableKeys (.num n) p = []))
    ∧ (∀ k v fs p, extractTranslatableKeys (.obj (.cons k v fs)) p
        = extractTranslatableKeys v (joinKey p k) ++ extractTranslatableKeys (.obj fs) p)
    ∧ (∀ p, extractTranslatableKeys (.obj .nil) p = [])
    ∧ (∀ xs p, extractTranslatableKeys (.arr xs) p = extractElems xs p 0)
    ∧ (∀ x xs p i, extractElems (.cons x xs) p i
        = extractTranslatableKeys x (p ++ "[" ++ natToString i ++ "]") ++ extractElems xs p (i + 1))
    ∧ (∀ cur p e, e ∈ extractTranslatableKeys cur p → jsTrim e.2 ≠ "") := by
  refine ⟨by decide, fun s p => by rw [extractTranslatableKeys],
    fun p => ⟨by rw [extractTranslatableKeys], fun b => by rw [extractTranslatableKeys],
      fun n => by rw [extractTranslatableKeys]⟩,
    fun k v fs p => by rw [extractTranslatableKeys, extractFields, extractTranslatableKeys],
    fun p => by rw [extractTranslatableKeys, extractFields],
    fun xs p => by rw [extractTranslatableKeys],
    fun x xs p i => by rw [extractElems],
    extract_entry_trim⟩

/-- C2 (witness): the trim condition instantiated at the example
document's first extracted entry. -/
theorem extractTranslatableKeys_spec_witness : jsTrim "Hello" ≠ "" :=
  extractTranslatableKeys_spec.2.2.2.2.2.2.2
    (.obj (.cons "a" (.str "Hello")
      (.cons "b" (.obj (.cons "c" (.str "World") .nil))
        (.cons "d" (.arr (.cons (.str "x") (.cons (.str "") .nil))) .nil)))) ""
    ("a", "Hello") (by decide)

/-! ### Document Reassembler: C9 -/

mutual

/-- The structural copy `JSON.parse(JSON.stringify(x))` equals its input
as a value (so the fold of `applyTranslations` operates on a tree
disjoint from the caller's). -/
theorem deepClone_eq : ∀ j : Json, deepClone j = j
  | .null => rfl
  | .bool _ => rfl
  | .num _ => rfl
  | .str _ => rfl
  | .arr xs => by rw [deepClone, deepCloneList_eq xs]
  | .obj fs => by rw [deepClone, deepCloneFields_eq fs]
termination_by structural j => j

/-- Element-wise identity of the array clone. -/
theorem deepCloneList_eq : ∀ xs : JsonList, deepCloneList xs = xs
  | .nil => rfl
  | .cons x rest => by rw [deepCloneList, deepClone_eq x, deepCloneList_eq rest]
termination_by structural xs => xs

/-- Field-wise identity of the object clone. -/
theorem deepCloneFields_eq : ∀ fs : JsonFields, deepCloneFields fs = fs
  | .nil => rfl
  | .cons k v rest => by rw [deepCloneFields, deepClone_eq v, deepCloneFields_eq rest]
termination_by structural fs => fs

end

/-- Every error the apply fold accumulates was already present or is
keyed by one of the processed paths and wraps a thrown message. -/
theorem applyFold_errors : ∀ (ts : List (String × String))
    (acc : Json × List JSONProcessingError) (err : JSONProcessingError),
    err ∈ (ts.foldl applyStep acc).2 →
    err ∈ acc.2 ∨ (err.key ∈ ts.map Prod.fst
      ∧ ∃ msg, err.error = "Failed to apply translation: " ++ msg)
  | [], _, _, h => .inl h
  | kv :: ts, acc, err, h => by
      rw [List.foldl_cons] at h
      rcases applyFold_errors ts (applyStep acc kv) err h with h1 | h2
      · unfold applyStep at h1
        split at h1
        · exact .inl h1
        · next e _ =>
            rcases List.mem_append.mp h1 with h3 | h4
            · exact .inl h3
            · rcases List.mem_singleton.mp h4 with rfl
              exact .inr ⟨by simp, ⟨e, rfl⟩⟩
      · exact .inr ⟨by simp only [List.map_cons, List.mem_cons]; exact .inr h2.1, h2.2⟩

/-- C9: `applyTranslations` works on a deep clone whose value equals the
original (the caller's tree is never aliased, hence never mutated);
every reported apply error is keyed by one of the supplied paths and
wraps the thrown message; and a failing path neither aborts later
assignments nor suppresses the returned document — on `{"a":"v"}` with
translations for `"x"`, the throwing path `"a.b"` and `"y"`, both good
paths are applied and the error list carries exactly the `"a.b"`
entry. -/
theorem applyTranslations_frame_and_isolation :
    (∀ D, deepClone D = D)
    ∧ (∀ D ts err, err ∈ (applyTranslations D ts).2 →
        err.key ∈ ts.map Prod.fst ∧ ∃ msg, err.error = "Failed to apply translation: " ++ msg)
    ∧ applyTranslations (.obj (.cons "a" (.str "v") .nil)) [("x", "X"), ("a.b", "Y"), ("y", "Z")]
        = (.obj (.cons "a" (.str "v") (.cons "x" (.str "X") (.cons "y" (.str "Z") .nil))),
           [⟨"a.b", "Failed to apply translation: TypeError"⟩]) := by
  refine ⟨deepClone_eq, fun D ts err h => ?_, by decide⟩
  rcases applyFold_errors ts (deepClone D, []) err h with h1 | h2
  · exact absurd h1 (List.not_mem_nil err)
  · exact h2

/-- C9 (witness): the error-provenance conjunct instantiated at the
concrete failing path `"a.b"`. -/
theorem applyTranslations_frame_and_isolation_witness :
    (⟨"a.b", "Failed to apply translation: TypeError"⟩ : JSONProcessingError).key
        ∈ [("x", "X"), ("a.b", "Y"), ("y", "Z")].map Prod.fst
    ∧ ∃ msg, (⟨"a.b", "Failed to apply translation: TypeError"⟩ : JSONProcessingError).error
        = "Failed to apply translation: " ++ msg :=
  applyTranslations_frame_and_isolation.2.1 (.obj (.cons "a" (.str "v") .nil))
    [("x", "X"), ("a.b", "Y"), ("y", "Z")]
    ⟨"a.b", "Failed to apply translation: TypeError"⟩ (by decide)

/-! ### Batch failure policy: C5 -/

/-- The per-item fallback makes exactly one backend call per unresolved
item and returns that call's outcome, id and key preserved. -/
theorem individualFallback_spec : ∀ (backend : Backend) (cfg : TranslationConfig)
    (unc : List TranslationItem) (cache : Cache),
    (individualFallback backend cfg unc cache).1
      = unc.map (fun it =>
          { id := it.id, key := it.key, success := (backend it.key it.value).success,
            translatedValue := (backend it.key it.value).translatedValue,
            error := (backend it.key it.value).error })
    ∧ (individualFallback backend cfg unc cache).2.2
      = unc.map (fun it => (it.key, it.value))
  | _, _, [], _ => ⟨rfl, rfl⟩
  | backend, cfg, it :: rest, cache => by
      have ih := individualFallback_spec backend cfg rest
        (if (backend it.key it.value).success then
          assocSet cache (getCacheKey it.value cfg.targetLanguage cfg.sourceLanguage)
            (backend it.key it.value).translatedValue
         else cache)
      simp only [individualFallback, List.map_cons]
      exact ⟨by rw [ih.1], by rw [ih.2]⟩

/-- A position whose parsed translation is the empty string receives a
failed outcome carrying the parse-error message. -/
theorem applyParsed_parse_failure : ∀ (cfg : TranslationConfig)
    (unc : List TranslationItem) (trs : List String) (cache : Cache) (i : Nat)
    (it : TranslationItem),
    unc.get? i = some it → trs.get? i = some "" →
    { id := it.id, key := it.key, success := false, translatedValue := "",
      error := some ("Failed to parse batch translation result") }
      ∈ (applyParsedTranslations cfg unc trs cache).1
  | cfg, [], trs, cache, i, it, hu, _ => by simp at hu
  | cfg, u :: unc, [], cache, i, it, hu, ht => by simp at ht
  | cfg, u :: unc, tr :: trs, cache, 0, it, hu, ht => by
      obtain rfl : u = it := by simpa using hu
      obtain rfl : tr = "" := by simpa using ht
      simp [applyParsedTranslations]
  | cfg, u :: unc, tr :: trs, cache, i + 1, it, hu, ht => by
      have hu' : unc.get? i = some it := by simpa using hu
      have ht' : trs.get? i = some "" := by simpa using ht
      by_cases htr : tr ≠ ""
      · have ih := applyParsed_parse_failure cfg unc trs
          (assocSet cache (getCacheKey u.value cfg.targetLanguage cfg.sourceLanguage) tr)
          i it hu' ht'
        simp only [applyParsedTranslations, if_pos htr]
        exact List.mem_cons_of_mem _ ih
      · have ih := applyParsed_parse_failure cfg unc trs cache i it hu' ht'
        simp only [applyParsedTranslations, if_neg htr]
        exact List.mem_cons_of_mem _ ih

/-- C5 (amended): the per-item fallback fires exactly when the batch
backend call itself fails — a failed batch call yields one individual
backend call and outcome per unresolved item; but a successful batch
call whose response parses to the empty string at some position gives
that item a hard failed outcome (`"Failed to parse batch translation result"`)
with no further backend call: the run's only backend call is the batch
call itself. -/
theorem batch_fallback_policy :
    (∀ (backend : Backend) (cfg : TranslationConfig) (cache : Cache)
        (batch : List TranslationItem) (i : Nat) (it : TranslationItem),
        (cachedSplit cfg cache batch).2.get? i = some it →
        (backend ("batch") (createBatchPrompt cfg (cachedSplit cfg cache batch).2)).success = true →
        (parseBatchResponse
            (backend ("batch") (createBatchPrompt cfg (cachedSplit cfg cache batch).2)).translatedValue
            (cachedSplit cfg cache batch).2.length).get? i = some "" →
        { id := it.id, key := it.key, success := false, translatedValue := "",
          error := some ("Failed to parse batch translation result") }
          ∈ (processBatch backend cfg cache batch).1
        ∧ (processBatch backend cfg cache batch).2.2
            = [(("batch"), createBatchPrompt cfg (cachedSplit cfg cache batch).2)])
    ∧ (∀ (backend : Backend) (cfg : TranslationConfig) (cache : Cache)
        (batch : List TranslationItem),
        (cachedSplit cfg cache batch).2 ≠ [] →
        (backend ("batch") (createBatchPrompt cfg (cachedSplit cfg cache batch).2)).success = false →
        (processBatch backend cfg cache batch).1
          = (cachedSplit cfg cache batch).1
            ++ (cachedSplit cfg cache batch).2.map (fun it =>
                { id := it.id, key := it.key, success := (backend it.key it.value).success,
                  translatedValue := (backend it.key it.value).translatedValue,
                  error := (backend it.key it.value).error })
        ∧ (processBatch backend cfg cache batch).2.2
            = (("batch"), createBatchPrompt cfg (cachedSplit cfg cache batch).2)
              :: (cachedSplit cfg cache batch).2.map (fun it => (it.key, it.value))) := by
  constructor
  · intro backend cfg cache batch i it hit hsucc hparse
    have hne : ((cachedSplit cfg cache batch).2.isEmpty) = false := by
      rcases h0 : (cachedSplit cfg cache batch).2 with _ | _
      · rw [h0] at hit; simp at hit
      · simp [h0]
    constructor
    · simp only [processBatch, hne, Bool.false_eq_true, if_false, hsucc, if_true]
      exact List.mem_append_right _ (applyParsed_parse_failure cfg _ _ cache i it hit hparse)
    · simp only [processBatch, hne, Bool.false_eq_true, if_false, hsucc, if_true]
  · intro backend cfg cache batch hne hfail
    have hne' : ((cachedSplit cfg cache batch).2.isEmpty) = false := by
      rcases h0 : (cachedSplit cfg cache batch).2 with _ | _
      · exact absurd h0 hne
      · simp [h0]
    have hspec := individualFallback_spec backend cfg (cachedSplit cfg cache batch).2 cache
    constructor
    · simp only [processBatch, hne', Bool.false_eq_true, if_false, hfail]
      rw [hspec.1]
    · simp only [processBatch, hne', Bool.false_eq_true, if_false, hfail]
      rw [hspec.2]

/-- C5 (witness): the fallback branch instantiated — for the one-item
batch whose backend reports failure for the batch call and success
individually, the outcome list is the individual success and the call
log is the batch call followed by the individual call. -/
theorem batch_fallback_policy_witness :
    (processBatch
        (fun k _ => if k = "batch" then { success := false, translatedValue := "",
                                          error := some ("HTTP 500") }
                    else { success := true, translatedValue := "Hola" })
        { targetLanguage := "es" } []
        [{ key := "greeting", value := "Hello", id := "1" }]).1
      = (cachedSplit { targetLanguage := "es" } []
          [{ key := "greeting", value := "Hello", id := "1" }]).1
        ++ (cachedSplit { targetLanguage := "es" } []
            [{ key := "greeting", value := "Hello", id := "1" }]).2.map (fun it =>
            { id := it.id, key := it.key,
              success := ((fun k _ => if k = "batch" then
                  { success := false, translatedValue := "", error := some ("HTTP 500") }
                else { success := true, translatedValue := "Hola" }) it.key it.value :
                  TranslationResult).success,
              translatedValue := ((fun k _ => if k = "batch" then
                  { success := false, translatedValue := "", error := some ("HTTP 500") }
                else { success := true, translatedValue := "Hola" }) it.key it.value :
                  TranslationResult).translatedValue,
              error := ((fun k _ => if k = "batch" then
                  { success := false, translatedValue := "", error := some ("HTTP 500") }
                else { success := true, translatedValue := "Hola" }) it.key it.value :
                  TranslationResult).error })
    ∧ (processBatch
        (fun k _ => if k = "batch" then { success := false, translatedValue := "",
                                          error := some ("HTTP 500") }
                    else { success := true, translatedValue := "Hola" })
        { targetLanguage := "es" } []
        [{ key := "greeting", value := "Hello", id := "1" }]).2.2
      = (("batch"), createBatchPrompt { targetLanguage := "es" }
          (cachedSplit { targetLanguage := "es" } []
            [{ key := "greeting", value := "Hello", id := "1" }]).2)
        :: (cachedSplit { targetLanguage := "es" } []
            [{ key := "greeting", value := "Hello", id := "1" }]).2.map
              (fun it => (it.key, it.value)) :=
  batch_fallback_policy.2
    (fun k _ => if k = "batch" then { success := false, translatedValue := "",
                                      error := some ("HTTP 500") }
                else { success := true, translatedValue := "Hola" })
    { targetLanguage := "es" } [] [{ key := "greeting", value := "Hello", id := "1" }]
    (by decide) (by decide)

/-! ### Cancellation semantics: C4 -/

/-- `processItem` returns the item's own id and key in every branch. -/
theorem processItem_id_key (backend : Backend) (cfg : TranslationConfig) (w : Bool)
    (cache : Cache) (it : TranslationItem) :
    (processItem backend cfg w cache it).1.id = it.id
    ∧ (processItem backend cfg w cache it).1.key = it.key := by
  unfold processItem
  rcases hc : cacheHit cache (getCacheKey it.value cfg.targetLanguage cfg.sourceLanguage) with _ | v
  · rcases w with _ | _ <;> simp [hc]
  · simp [hc]

/-- An item that fails while the cancellation flag is visible after its
rate-limit wait fails with the cancellation message (its backend was
never invoked). -/
theorem processItem_cancelled (backend : Backend) (cfg : TranslationConfig)
    (cache : Cache) (it : TranslationItem)
    (hf : (processItem backend cfg true cache it).1.success = false) :
    (processItem backend cfg true cache it).1.error = some ("Translation cancelled") := by
  unfold processItem at hf ⊢
  rcases hc : cacheHit cache (getCacheKey it.value cfg.targetLanguage cfg.sourceLanguage) with _ | v
  · simp [hc]
  · simp [hc] at hf

/-- `processItem` makes no backend call on a cache hit or under a
visible cancellation flag, and at most one otherwise. -/
theorem processItem_log_length (backend : Backend) (cfg : TranslationConfig) (w : Bool)
    (cache : Cache) (it : TranslationItem) :
    (processItem backend cfg w cache it).2.2.length ≤ if w = true then 0 else 1 := by
  unfold processItem
  rcases hc : cacheHit cache (getCacheKey it.value cfg.targetLanguage cfg.sourceLanguage) with _ | v
  · rcases w with _ | _ <;> simp [hc]
  · rcases w with _ | _ <;> simp [hc]

/-- The drive loop under a cancellation flag raised from instant `ct`
on: starting at step `t` it processes exactly the first
`min items.length ((ct + 1) / 2 - t)` queued items (the remainder is
dropped without outcome), outcome `i` corresponds to input item `i`, an
outcome produced under the flag can only fail with the cancellation
message, and no backend call is made from the flag on. -/
theorem runLoop_cancel_spec : ∀ (backend : Backend) (cfg : TranslationConfig) (ct : Nat)
    (items : List TranslationItem) (t : Nat) (cache : Cache),
    ((runLoop backend cfg (some ct) items t cache).1.length
        = min items.length ((ct + 1) / 2 - t))
    ∧ (∀ i r, (runLoop backend cfg (some ct) items t cache).1.get? i = some r →
        ∃ it, items.get? i = some it ∧ r.id = it.id ∧ r.key = it.key)
    ∧ (∀ i r, (runLoop backend cfg (some ct) items t cache).1.get? i = some r →
        ct ≤ 2 * (t + i) + 1 → r.success = false →
        r.error = some ("Translation cancelled"))
    ∧ ((runLoop backend cfg (some ct) items t cache).2.2.length
        ≤ min items.length (ct / 2 - t))
  | backend, cfg, ct, [], t, cache => by
      refine ⟨by simp [runLoop], fun i r h => by simp [runLoop] at h,
        fun i r h => by simp [runLoop] at h, by simp [runLoop]⟩
  | backend, cfg, ct, item :: rest, t, cache => by
      by_cases hstop : flagAt (some ct) (2 * t) = true
      · have hct : ct ≤ 2 * t := by simpa [flagAt] using hstop
        refine ⟨?_, fun i r h => ?_, fun i r h => ?_, ?_⟩
        · simp only [runLoop, hstop, if_true, List.length_nil]
          omega
        · simp [runLoop, hstop] at h
        · simp [runLoop, hstop] at h
        · simp only [runLoop, hstop, if_true, List.length_nil]
          omega
      · have hct : 2 * t < ct := by
          rcases Nat.lt_or_ge (2 * t) ct with h | h
          · exact h
          · exact absurd (by simpa [flagAt] using h) hstop
        have ih := runLoop_cancel_spec backend cfg ct rest (t + 1)
          (processItem backend cfg (flagAt (some ct) (2 * t + 1)) cache item).2.1
        refine ⟨?_, fun i r h => ?_, fun i r h => ?_, ?_⟩
        · simp only [runLoop, hstop, Bool.false_eq_true, if_false, List.length_cons]
          rw [ih.1]
          omega
        · simp only [runLoop, hstop, Bool.false_eq_true, if_false] at h
          rcases i with _ | i
          · obtain rfl : (processItem backend cfg (flagAt (some ct) (2 * t + 1)) cache item).1 = r := by
              simpa using h
            exact ⟨item, rfl,
              (processItem_id_key backend cfg _ cache item).1,
              (processItem_id_key backend cfg _ cache item).2⟩
          · have h' := ih.2.1 i r (by simpa using h)
            rcases h' with ⟨it, hit, hid, hkey⟩
            exact ⟨it, by simpa using hit, hid, hkey⟩
        · simp only [runLoop, hstop, Bool.false_eq_true, if_false] at h
          rcases i with _ | i
          · intro hcw hf
            obtain rfl : (processItem backend cfg (flagAt (some ct) (2 * t + 1)) cache item).1 = r := by
              simpa using h
            have hw : flagAt (some ct) (2 * t + 1) = true := by
              simp only [flagAt, decide_eq_true_eq]
              omega
            rw [hw] at hf ⊢
            exact processItem_cancelled backend cfg cache item hf
          · intro hcw hf
            exact ih.2.2.1 i r (by simpa using h) (by omega) hf
        · have h1 := processItem_log_length backend cfg (flagAt (some ct) (2 * t + 1)) cache item
          have h2 := ih.2.2.2
          simp only [runLoop, hstop, Bool.false_eq_true, if_false, List.length_append,
            List.length_cons]
          by_cases hw : flagAt (some ct) (2 * t + 1) = true
          · have hct1 : ct ≤ 2 * t + 1 := by simpa [flagAt] using hw
            rw [hw] at h1 h2 ⊢
            replace h1 : (processItem backend cfg true cache item).2.2.length ≤ 0 := by
              simpa using h1
            omega
          · have hwf : flagAt (some ct) (2 * t + 1) = false := by
              revert hw
              cases flagAt (some ct) (2 * t + 1) <;> simp
            have hct1 : 2 * t + 1 < ct := by
              by_contra hcon
              have hwt : flagAt (some ct) (2 * t + 1) = true := by
                simp only [flagAt, decide_eq_true_eq]
                omega
              rw [hwf] at hwt
              exact Bool.false_ne_true hwt
            rw [hwf] at h1 h2 ⊢
            simp only [Bool.false_eq_true, if_false] at h1
            omega

/-- C4 (amended): after `cancel()` no new item is dispatched to the
backend and in-flight work finishes, but the run does not resolve with
an outcome for every submitted item: the drive loop stops dequeuing once
it observes the flag, so exactly the first `min n ((ct+1)/2)` items get
outcomes (position-matched to the input) and the remaining queued items
are dropped without any outcome; an item already dequeued that observes
the flag after its rate-limit wait fails with the distinguishable
`"Translation cancelled"` message; and the number of backend calls is
bounded by the pre-flag steps `min n (ct/2)`. -/
theorem cancellation_semantics (backend : Backend) (cfg : TranslationConfig) (ct : Nat)
    (items : List TranslationItem) :
    ((runLoop backend cfg (some ct) items 0 []).1.length = min items.length ((ct + 1) / 2))
    ∧ (∀ i r, (runLoop backend cfg (some ct) items 0 []).1.get? i = some r →
        ∃ it, items.get? i = some it ∧ r.id = it.id ∧ r.key = it.key)
    ∧ (∀ i r, (runLoop backend cfg (some ct) items 0 []).1.get? i = some r →
        ct ≤ 2 * i + 1 → r.success = false → r.error = some ("Translation cancelled"))
    ∧ ((runLoop backend cfg (some ct) items 0 []).2.2.length ≤ min items.length (ct / 2)) := by
  have h := runLoop_cancel_spec backend cfg ct items 0 []
  refine ⟨by simpa using h.1, h.2.1, fun i r hr hct => h.2.2.1 i r hr (by omega),
    by simpa using h.2.2.2⟩

/-- C4 (witness): the cancelled two-item run — one outcome, matched to
the first item, and no outcome at position 1; the run cancelled during
the first item's wait yields the `"Translation cancelled"` failure. -/
theorem cancellation_semantics_witness :
    ((runLoop (fun _ v => { success := true, translatedValue := v })
        { targetLanguage := "es" } (some 1)
        [{ key := "z", value := "Zebra", id := "id1" },
         { key := "a", value := "Apple", id := "id2" }] 0 []).1.get? 0
      = some { id := "id1", key := "z", success := false, translatedValue := "",
               error := some ("Translation cancelled") })
    ∧ (({ id := "id1", key := "z", success := false, translatedValue := "",
          error := some ("Translation cancelled") } : TranslationOutcome).error
        = some ("Translation cancelled")) := by
  refine ⟨by decide, ?_⟩
  exact cancellation_semantics (fun _ v => { success := true, translatedValue := v })
    { targetLanguage := "es" } 1
    [{ key := "z", value := "Zebra", id := "id1" },
     { key := "a", value := "Apple", id := "id2" }] |>.2.2.1 0
    { id := "id1", key := "z", success := false, translatedValue := "",
      error := some ("Translation cancelled") } (by decide) (by decide) (by decide)

/-! ### Cache at-most-once: C7 -/

/-- Strings with equal character lists are equal. -/
theorem string_data_inj {a b : String} (h : a.data = b.data) : a = b := by
  cases a
  cases b
  exact congrArg String.mk h

/-- For a fixed language pair, the cache key determines the source
text (the key is the fixed prefix followed by the text). -/
theorem getCacheKey_inj_value (tgt : String) (src : Option String) {v1 v2 : String}
    (h : getCacheKey v1 tgt src = getCacheKey v2 tgt src) : v1 = v2 := by
  unfold getCacheKey at h
  have hd := congrArg String.data h
  simp only [String.data_append] at hd
  exact string_data_inj (List.append_cancel_left hd)

/-- Looking up the freshly set key. -/
theorem assocGet_set_self {β : Type} (l : List (String × β)) (k : String) (v : β) :
    assocGet (assocSet l k v) k = some v := by
  induction l with
  | nil => simp [assocSet, assocGet]
  | cons kv rest ih =>
      by_cases hk : kv.1 = k
      · simp [assocSet, assocGet, hk]
      · simp [assocSet, assocGet, hk, ih]

/-- Setting one key leaves the lookup of another unchanged. -/
theorem assocGet_set_other {β : Type} (l : List (String × β)) (k k2 : String) (v : β)
    (hne : k ≠ k2) : assocGet (assocSet l k v) k2 = assocGet l k2 := by
  induction l with
  | nil => simp [assocSet, assocGet, hne]
  | cons kv rest ih =>
      by_cases hk : kv.1 = k
      · simp [assocSet, assocGet, hk, hne]
      · simp [assocSet, assocGet, hk, ih]

/-- The sequential (single-worker, uncancelled) drive loop calls the
backend at most once per source text, provided every call succeeds with
a truthy translation: the first miss populates the cache and every later
item with the same text hits it.  If the text is already cached at
entry, no call at all is made for it. -/
theorem runLoop_calls_at_most_once : ∀ (backend : Backend) (cfg : TranslationConfig)
    (items : List TranslationItem) (t : Nat) (cache : Cache),
    (∀ k v, (backend k v).success = true ∧ (backend k v).translatedValue ≠ "") →
    ∀ v, (((runLoop backend cfg none items t cache).2.2.filter
            (fun c => decide (c.2 = v))).length ≤ 1)
      ∧ ((cacheHit cache (getCacheKey v cfg.targetLanguage cfg.sourceLanguage)).isSome = true →
          ((runLoop backend cfg none items t cache).2.2.filter
            (fun c => decide (c.2 = v))).length = 0)
  | backend, cfg, [], t, cache, hb, v => by simp [runLoop]
  | backend, cfg, item :: rest, t, cache, hb, v => by
      have hflag : flagAt none (2 * t) = false := rfl
      rcases hc : cacheHit cache (getCacheKey item.value cfg.targetLanguage cfg.sourceLanguage)
        with _ | w
      · have hpr : processItem backend cfg (flagAt none (2 * t + 1)) cache item
            = ({ id := item.id, key := item.key, success := (backend item.key item.value).success,
                 translatedValue := (backend item.key item.value).translatedValue,
                 error := (backend item.key item.value).error },
               assocSet cache (getCacheKey item.value cfg.targetLanguage cfg.sourceLanguage)
                 (backend item.key item.value).translatedValue,
               [(item.key, item.value)]) := by
          unfold processItem
          simp [hc, flagAt, (hb item.key item.value).1]
        have ih := runLoop_calls_at_most_once backend cfg rest (t + 1)
          (assocSet cache (getCacheKey item.value cfg.targetLanguage cfg.sourceLanguage)
            (backend item.key item.value).translatedValue) hb v
        simp only [runLoop, hflag, Bool.false_eq_true, if_false, hpr, List.filter_append,
          List.length_append]
        by_cases hv : item.value = v
        · subst hv
          have hcached : (cacheHit
              (assocSet cache (getCacheKey item.value cfg.targetLanguage cfg.sourceLanguage)
                (backend item.key item.value).translatedValue)
              (getCacheKey item.value cfg.targetLanguage cfg.sourceLanguage)).isSome = true := by
            unfold cacheHit
            rw [assocGet_set_self]
            simp [(hb item.key item.value).2]
          have h0 := ih.2 hcached
          refine ⟨?_, fun hsome => ?_⟩
          · simp [h0]
          · rw [hc] at hsome
            simp at hsome
        · have hkeyne : getCacheKey item.value cfg.targetLanguage cfg.sourceLanguage
              ≠ getCacheKey v cfg.targetLanguage cfg.sourceLanguage := by
            intro heq
            exact hv (getCacheKey_inj_value cfg.targetLanguage cfg.sourceLanguage heq)
          have hpres : cacheHit
              (assocSet cache (getCacheKey item.value cfg.targetLanguage cfg.sourceLanguage)
                (backend item.key item.value).translatedValue)
              (getCacheKey v cfg.targetLanguage cfg.sourceLanguage)
              = cacheHit cache (getCacheKey v cfg.targetLanguage cfg.sourceLanguage) := by
            unfold cacheHit
            rw [assocGet_set_other _ _ _ _ hkeyne]
          refine ⟨?_, fun hsome => ?_⟩
          · simpa [hv] using ih.1
          · have h0 := ih.2 (by rw [hpres]; exact hsome)
            simpa [hv] using h0
      · have hpr : processItem backend cfg (flagAt none (2 * t + 1)) cache item
            = ({ id := item.id, key := item.key, success := true, translatedValue := w },
               cache, []) := by
          unfold processItem
          simp [hc, flagAt]
        have ih := runLoop_calls_at_most_once backend cfg rest (t + 1) cache hb v
        simp only [runLoop, hflag, Bool.false_eq_true, if_false, hpr, List.filter_append,
          List.length_append]
        refine ⟨by simpa using ih.1, fun hsome => by simpa using ih.2 hsome⟩

/-- Every item the batch path forwards past its cache pass is a cache
miss: the cache is consulted before any backend call is issued. -/
theorem cachedSplit_uncached_miss : ∀ (cfg : TranslationConfig) (cache : Cache)
    (batch : List TranslationItem) (it : TranslationItem),
    it ∈ (cachedSplit cfg cache batch).2 →
    cacheHit cache (getCacheKey it.value cfg.targetLanguage cfg.sourceLanguage) = none
  | cfg, cache, [], it, h => by simp [cachedSplit] at h
  | cfg, cache, u :: rest, it, h => by
      rcases hc : cacheHit cache (getCacheKey u.value cfg.targetLanguage cfg.sourceLanguage)
        with _ | w
      · simp only [cachedSplit, hc] at h
        rcases List.mem_cons.mp h with heq | h
        · rw [heq]
          exact hc
        · exact cachedSplit_uncached_miss cfg cache rest it h
      · simp only [cachedSplit, hc] at h
        exact cachedSplit_uncached_miss cfg cache rest it h

/-- C7 (amended): within one sequential (non-overlapping) run with a
fixed language pair, the backend is invoked at most once per source text
— the cache is consulted before every backend call and populated after
every successful one — provided each call succeeds with a non-empty
translation; and in the batch path the cache pass forwards exactly the
texts not yet cached.  (Concurrently dispatched duplicates may still
each call the backend: see the counterexample.) -/
theorem cache_at_most_once_sequential :
    (∀ (backend : Backend) (cfg : TranslationConfig) (items : List TranslationItem)
        (cache0 : Cache),
        (∀ k v, (backend k v).success = true ∧ (backend k v).translatedValue ≠ "") →
        ∀ v, ((runLoop backend cfg none items 0 cache0).2.2.filter
            (fun c => decide (c.2 = v))).length ≤ 1)
    ∧ (∀ (cfg : TranslationConfig) (cache : Cache) (batch : List TranslationItem)
        (it : TranslationItem), it ∈ (cachedSplit cfg cache batch).2 →
        cacheHit cache (getCacheKey it.value cfg.targetLanguage cfg.sourceLanguage) = none) :=
  ⟨fun backend cfg items cache0 hb v =>
      (runLoop_calls_at_most_once backend cfg items 0 cache0 hb v).1,
   cachedSplit_uncached_miss⟩

/-- C7 (witness): the duplicate-text run of the spec's example — two
items both carrying `"Save"` — processed sequentially costs at most one
backend call for `"Save"`. -/
theorem cache_at_most_once_sequential_witness :
    ((runLoop (fun _ _ => { success := true, translatedValue := "Guardar" })
        { targetLanguage := "es" } none
        [{ key := "buttons.save", value := "Save", id := "1" },
         { key := "actions.save", value := "Save", id := "2" }] 0 []).2.2.filter
      (fun c => decide (c.2 = "Save"))).length ≤ 1 :=
  cache_at_most_once_sequential.1
    (fun _ _ => { success := true, translatedValue := "Guardar" })
    { targetLanguage := "es" }
    [{ key := "buttons.save", value := "Save", id := "1" },
     { key := "actions.save", value := "Save", id := "2" }] []
    (fun _ _ => ⟨rfl, by simp⟩) ("Save")

/-! ### Rate bound: C8 -/

/-- Every dispatch a serialized caller sequence produces lies at least
one minimum interval after the `lastRequestTime` it started from. -/
theorem rateDispatch_ge : ∀ (rpm : Nat) (arrivals : List Nat) (last : Nat),
    0 < minInterval rpm →
    ∀ x ∈ rateDispatch rpm arrivals last, last + minInterval rpm ≤ x
  | rpm, [], last, hg, x, hx => by simp [rateDispatch] at hx
  | rpm, now :: rest, last, hg, x, hx => by
      simp only [rateDispatch, List.mem_cons] at hx
      rcases hx with rfl | hx
      · unfold waitDeadline
        split
      <;> omega
      · have htail := rateDispatch_ge rpm rest (waitDeadline rpm last now) hg x hx
        unfold waitDeadline at htail
        revert htail
        split <;> omega

/-- Serialized dispatches are pairwise separated by at least the
minimum interval. -/
theorem rateDispatch_pairwise : ∀ (rpm : Nat) (arrivals : List Nat) (last : Nat),
    0 < minInterval rpm →
    (rateDispatch rpm arrivals last).Pairwise (fun a b => a + minInterval rpm ≤ b)
  | _, [], _, _ => List.Pairwise.nil
  | rpm, now :: rest, last, hg => by
      simp only [rateDispatch, List.pairwise_cons]
      exact ⟨fun y hy => rateDispatch_ge rpm rest (waitDeadline rpm last now) hg y hy,
        rateDispatch_pairwise rpm rest (waitDeadline rpm last now) hg⟩

/-- A list pairwise separated by `g` whose members all exceed
`t - k * g` holds at most `k` members `≤ t`. -/
theorem gapped_window_bound : ∀ (ts : List Nat) (g k t : Nat),
    ts.Pairwise (fun a b => a + g ≤ b) → (∀ x ∈ ts, t < x + k * g) →
    (ts.filter (fun x => decide (x ≤ t))).length ≤ k
  | [], _, _, _, _, _ => by simp
  | d :: rest, g, k, t, hp, hin => by
      rcases List.pairwise_cons.mp hp with ⟨hd, hrest⟩
      by_cases hdt : d ≤ t
      · have hk : 1 ≤ k := by
          rcases Nat.eq_zero_or_pos k with rfl | hk
          · have h0 := hin d (List.mem_cons_self d rest)
            simp at h0
            omega
          · exact hk
        have ih := gapped_window_bound rest g (k - 1) t hrest (fun y hy => by
          have h1 := hd y hy
          have h2 := hin d (List.mem_cons_self d rest)
          have : (k - 1) * g + g = k * g := by
            have : k - 1 + 1 = k := by omega
            calc (k - 1) * g + g = (k - 1 + 1) * g := by ring
            _ = k * g := by rw [this]
          omega)
        simp only [List.filter_cons, decide_eq_true_eq, if_pos hdt, List.length_cons]
        omega
      · have ih := gapped_window_bound rest g k t hrest (fun y hy =>
          hin y (List.mem_cons_of_mem d hy))
        simp only [List.filter_cons, decide_eq_true_eq, if_neg hdt]
        exact ih

/-- C8 (amended): for serialized (non-overlapping) callers and a rate
dividing 60000, every trailing 60-second window holds at most
`requestsPerMinute` dispatches, and a caller arriving before the minimum
interval has elapsed dispatches exactly at `lastRequestTime + 60000/rpm`
— it waits exactly the remaining delta, while a caller arriving after it
dispatches immediately.  (Concurrent callers that enter the wait
together can all dispatch together: see the counterexample.) -/
theorem rate_bound_sequential :
    (∀ rpm : Nat, rpm ∣ 60000 → 0 < rpm → ∀ (arrivals : List Nat) (last t : Nat),
        windowCount (rateDispatch rpm arrivals last) t ≤ rpm)
    ∧ (∀ rpm last now : Nat, now - last < minInterval rpm →
        waitDeadline rpm last now = last + minInterval rpm)
    ∧ (∀ rpm last now : Nat, minInterval rpm ≤ now - last → waitDeadline rpm last now = now) := by
  refine ⟨fun rpm hdvd hpos arrivals last t => ?_,
    fun rpm last now h => by unfold waitDeadline; rw [if_pos h],
    fun rpm last now h => by unfold waitDeadline; rw [if_neg (by omega)]⟩
  have hg : 0 < minInterval rpm := by
    have h60 : minInterval rpm * rpm = 60000 := Nat.div_mul_cancel hdvd
    by_contra h0
    have : minInterval rpm = 0 := by omega
    rw [this] at h60
    simp at h60
  have hpair : (rateDispatch rpm arrivals last).Pairwise
      (fun a b => a + minInterval rpm ≤ b) :=
    rateDispatch_pairwise rpm arrivals last hg
  have hpairf : ((rateDispatch rpm arrivals last).filter
      (fun x => decide (t < x + 60000))).Pairwise (fun a b => a + minInterval rpm ≤ b) :=
    hpair.filter _
  have hbound := gapped_window_bound
    ((rateDispatch rpm arrivals last).filter (fun x => decide (t < x + 60000)))
    (minInterval rpm) rpm t hpairf (fun x hx => by
      have hmem := List.of_mem_filter hx
      have h60 : minInterval rpm * rpm = 60000 := Nat.div_mul_cancel hdvd
      simp only [decide_eq_true_eq] at hmem
      have : rpm * minInterval rpm = 60000 := by rw [Nat.mul_comm]; exact h60
      omega)
  exact hbound

/-- C8 (witness): the window bound instantiated at the default-style
rate 60 requests per minute for three serialized arrivals. -/
theorem rate_bound_sequential_witness :
    windowCount (rateDispatch 60 [0, 0, 5000] 0) 2000 ≤ 60 :=
  rate_bound_sequential.1 60 (by decide) (by decide) [0, 0, 5000] 0 2000

/-! ### Ordering invariant: C3 -/

/-- In a list with pairwise distinct ids, `findIndex` locates the
element at position `i` by its id. -/
theorem findIdx_id_of_nodup : ∀ (items : List TranslationItem),
    (items.map (fun it => it.id)).Nodup →
    ∀ (i : Nat) (it : TranslationItem), items[i]? = some it →
    items.findIdx? (fun x => decide (x.id = it.id)) = some i
  | [], _, i, it, h => by simp at h
  | u :: rest, hnd, 0, it, h => by
      obtain rfl : u = it := by simpa using h
      simp
  | u :: rest, hnd, i + 1, it, h => by
      have h' : rest[i]? = some it := by simpa using h
      have hmem : it ∈ rest := by
        have := List.getElem?_eq_some_iff.mp h'
        rcases this with ⟨hlt, hget⟩
        rw [← hget]
        exact List.getElem_mem hlt
      have hnd' : (rest.map (fun it => it.id)).Nodup := by
        simp only [List.map_cons, List.nodup_cons] at hnd
        exact hnd.2
      have hne : u.id ≠ it.id := by
        intro he
        have hin : it.id ∈ rest.map (fun x => x.id) := List.mem_map_of_mem _ hmem
        simp only [List.map_cons, List.nodup_cons] at hnd
        rw [he] at hnd
        exact hnd.1 hin
      have ih := findIdx_id_of_nodup rest hnd' i it h'
      rw [List.findIdx?_cons, if_neg (by simpa using hne), List.findIdx?_succ, ih]
      rfl

/-- The sort key of an outcome whose id is that of the `i`-th input
item is `i`. -/
theorem inputIndex_of_get (items : List TranslationItem)
    (hnd : (items.map (fun it => it.id)).Nodup) (i : Nat) (it : TranslationItem)
    (r : TranslationOutcome) (hget : items[i]? = some it) (hid : r.id = it.id) :
    inputIndex items r = (i : Int) := by
  unfold inputIndex
  simp only [hid]
  rw [findIdx_id_of_nodup items hnd i it hget]

/-- Two sorted permutations of each other with pairwise distinct keys
are equal. -/
theorem sorted_perm_nodup_key_eq : ∀ (key : TranslationOutcome → Int)
    (l1 l2 : List TranslationOutcome), l1.Perm l2 →
    l1.Pairwise (fun a b => key a ≤ key b) → l2.Pairwise (fun a b => key a ≤ key b) →
    (l2.map key).Nodup → l1 = l2
  | _, l1, [], hperm, _, _, _ => hperm.eq_nil
  | key, l1, b :: bs, hperm, hs1, hs2, hnd => by
      cases l1 with
      | nil => exact absurd hperm.symm.eq_nil (by simp)
      | cons a as =>
          rcases List.pairwise_cons.mp hs1 with ⟨ha, has⟩
          rcases List.pairwise_cons.mp hs2 with ⟨hb, hbs⟩
          have hab : a = b := by
            by_contra hne
            have hain : a ∈ b :: bs := hperm.mem_iff.mp (List.mem_cons_self a as)
            have hbin : b ∈ a :: as := hperm.mem_iff.mpr (List.mem_cons_self b bs)
            rcases List.mem_cons.mp hain with h1 | h1
            · exact hne h1
            rcases List.mem_cons.mp hbin with h2 | h2
            · exact hne h2.symm
            have hk : key a = key b := le_antisymm (ha b h2) (hb a h1)
            have hkin : key a ∈ bs.map key := List.mem_map_of_mem key h1
            rw [hk] at hkin
            simp only [List.map_cons, List.nodup_cons] at hnd
            exact hnd.1 hkin
          subst hab
          have hperm2 : as.Perm bs := (List.perm_cons a).mp hperm
          have hnd' : (bs.map key).Nodup := by
            simp only [List.map_cons, List.nodup_cons] at hnd
            exact hnd.2
          rw [sorted_perm_nodup_key_eq key as bs hperm2 has hbs hnd']

/-- C3 (amended): `processItem` preserves each item's id, and in
parallel-individual mode the final sort restores the input order for
every completion permutation, provided the run was not cancelled (every
item has exactly one outcome) and the ids are pairwise distinct: the
returned array equals the input-ordered outcome list, in particular has
the input's length with position `i` corresponding to input item `i`.
(`translateBatch` returns batch order and a cancelled run drops items:
see the counterexample.) -/
theorem parallel_outcomes_input_order :
    (∀ (backend : Backend) (cfg : TranslationConfig) (w : Bool) (cache : Cache)
        (it : TranslationItem), (processItem backend cfg w cache it).1.id = it.id)
    ∧ (∀ (items : List TranslationItem) (f : TranslationItem → TranslationOutcome)
        (results : List TranslationOutcome),
        (items.map (fun it => it.id)).Nodup → (∀ it, (f it).id = it.id) →
        results.Perm (items.map f) →
        sortByInputIndex items results = items.map f
        ∧ (sortByInputIndex items results).length = items.length) := by
  constructor
  · intro backend cfg w cache it
    exact (processItem_id_key backend cfg w cache it).1
  · intro items f results hnd hf hperm
    have hkey : ∀ (i : Nat) (hi : i < items.length),
        inputIndex items (f items[i]) = (i : Int) := by
      intro i hi
      exact inputIndex_of_get items hnd i items[i] (f items[i])
        (List.getElem?_eq_getElem hi) (hf items[i])
    have htrans : ∀ (a b c : TranslationOutcome),
        (fun a b => decide (inputIndex items a ≤ inputIndex items b)) a b →
        (fun a b => decide (inputIndex items a ≤ inputIndex items b)) b c →
        (fun a b => decide (inputIndex items a ≤ inputIndex items b)) a c := by
      intro a b c h1 h2
      simp only [decide_eq_true_eq] at h1 h2 ⊢
      omega
    have htotal : ∀ (a b : TranslationOutcome),
        (fun a b => decide (inputIndex items a ≤ inputIndex items b)) a b
        || (fun a b => decide (inputIndex items a ≤ inputIndex items b)) b a := by
      intro a b
      simp only [Bool.or_eq_true, decide_eq_true_eq]
      omega
    have hsorted1 : (results.mergeSort
          (fun a b => decide (inputIndex items a ≤ inputIndex items b))).Pairwise
        (fun a b => inputIndex items a ≤ inputIndex items b) :=
      (List.sorted_mergeSort htrans htotal results).imp (fun h => by simpa using h)
    have hsorted2 : (items.map f).Pairwise
        (fun a b => inputIndex items a ≤ inputIndex items b) := by
      refine List.pairwise_iff_getElem.mpr ?_
      intro i j hi hj hij
      rw [List.getElem_map, List.getElem_map,
        hkey i (by simpa using hi), hkey j (by simpa using hj)]
      omega
    have hperm2 : (results.mergeSort
          (fun a b => decide (inputIndex items a ≤ inputIndex items b))).Perm (items.map f) :=
      (List.mergeSort_perm results _).trans hperm
    have hnodup : ((items.map f).map (fun r => inputIndex items r)).Nodup := by
      refine List.pairwise_iff_getElem.mpr ?_
      intro i j hi hj hij
      simp only [List.getElem_map]
      rw [hkey i (by simpa using hi), hkey j (by simpa using hj)]
      omega
    have hmain := sorted_perm_nodup_key_eq (fun r => inputIndex items r)
      (results.mergeSort (fun a b => decide (inputIndex items a ≤ inputIndex items b)))
      (items.map f) hperm2 hsorted1 hsorted2 hnodup
    refine ⟨hmain, ?_⟩
    rw [show sortByInputIndex items results = items.map f from hmain]
    simp

/-- C3 (witness): the two-item run whose outcomes complete in reverse
order is sorted back to input order. -/
theorem parallel_outcomes_input_order_witness :
    sortByInputIndex
        [{ key := "z", value := "Zebra", id := "id1" },
         { key := "a", value := "Apple", id := "id2" }]
        [{ id := "id2", key := "a", success := true, translatedValue := "Apple" },
         { id := "id1", key := "z", success := true, translatedValue := "Zebra" }]
      = ([{ key := "z", value := "Zebra", id := "id1" },
          { key := "a", value := "Apple", id := "id2" }] : List TranslationItem).map
          (fun it =>
            ({ id := it.id, key := it.key, success := true, translatedValue := it.value }
              : TranslationOutcome))
    ∧ (sortByInputIndex
        [{ key := "z", value := "Zebra", id := "id1" },
         { key := "a", value := "Apple", id := "id2" }]
        [{ id := "id2", key := "a", success := true, translatedValue := "Apple" },
         { id := "id1", key := "z", success := true, translatedValue := "Zebra" }]).length
      = ([{ key := "z", value := "Zebra", id := "id1" },
          { key := "a", value := "Apple", id := "id2" }] : List TranslationItem).length :=
  parallel_outcomes_input_order.2
    [{ key := "z", value := "Zebra", id := "id1" },
     { key := "a", value := "Apple", id := "id2" }]
    (fun it => { id := it.id, key := it.key, success := true, translatedValue := it.value })
    [{ id := "id2", key := "a", success := true, translatedValue := "Apple" },
     { id := "id1", key := "z", success := true, translatedValue := "Zebra" }]
    (by decide) (fun it => rfl) (by decide)

/-! ### Round-trip law: C1

The development below proves the amended round-trip law on good
documents: decimal rendering is inverted by `parseInt`, the greedy
bracket regex inverts the `key[index]` chunk rendering, splitting on `.`
inverts the path construction, and writing each extracted value back at
its own path leaves the document unchanged. -/

/-- A digit character for a digit value. -/
theorem digitChar_isDigit {d : Nat} (h : d < 10) : (digitChar d).isDigit = true := by
  interval_cases d <;> decide

/-- The digit value of a digit character. -/
theorem digitChar_val {d : Nat} (h : d < 10) : (digitChar d).toNat - 48 = d := by
  interval_cases d <;> decide

/-- Every character the decimal renderer emits is a digit. -/
theorem natDigits_all_digit : ∀ (fuel n : Nat), ∀ c ∈ natDigits fuel n, c.isDigit = true
  | 0, _, c, hc => absurd hc (List.not_mem_nil c)
  | fuel + 1, n, c, hc => by
      rw [natDigits] at hc
      split at hc
      · next h10 =>
          rcases List.mem_singleton.mp hc with rfl
          exact digitChar_isDigit h10
      · rcases List.mem_append.mp hc with h1 | h2
        · exact natDigits_all_digit fuel (n / 10) c h1
        · rcases List.mem_singleton.mp h2 with rfl
          exact digitChar_isDigit (Nat.mod_lt n (by omega))

/-- The decimal rendering is never empty. -/
theorem natDigits_ne_nil (n : Nat) : natDigits (n + 1) n ≠ [] := by
  rw [natDigits]
  split <;> simp

/-- `foldl`-step of the digit value on an appended digit. -/
theorem digitsToNat_append (l : List Char) (c : Char) :
    digitsToNat (l ++ [c]) = 10 * digitsToNat l + (c.toNat - 48) := by
  unfold digitsToNat
  rw [List.foldl_append]
  rfl

/-- `parseInt` inverts the decimal rendering. -/
theorem digitsToNat_natDigits : ∀ (fuel n : Nat), n < fuel →
    digitsToNat (natDigits fuel n) = n
  | 0, n, h => absurd h (by omega)
  | fuel + 1, n, h => by
      rw [natDigits]
      split
      · next h10 =>
          unfold digitsToNat
          simp only [List.foldl_cons, List.foldl_nil]
          have := digitChar_val h10
          omega
      · next h10 =>
          rw [digitsToNat_append]
          have hrec := digitsToNat_natDigits fuel (n / 10) (by
            have h1 : n / 10 < n := Nat.div_lt_self (by omega) (by omega)
            omega)
          have hmod := digitChar_val (Nat.mod_lt n (show 0 < 10 by omega))
          rw [hrec, hmod]
          omega

/-- `parseInt` of the rendered index. -/
theorem digitsToNat_natToString (n : Nat) : digitsToNat (natToString n).data = n :=
  digitsToNat_natDigits (n + 1) n (Nat.lt_succ_self n)

/-- A digit is not any fixed non-digit character. -/
theorem isDigit_ne {c d : Char} (h : c.isDigit = true) (hd : d.isDigit = false) : c ≠ d := by
  intro he
  rw [he, hd] at h
  cases h

/-- String equality from character-list equality of the underlying
lists. -/
theorem string_mk_data (k : String) : (⟨k.data⟩ : String) = k := by
  cases k
  rfl

/-- `goodKey` unpacked. -/
theorem goodKey_spec {k : String} (h : goodKey k = true) :
    k.data ≠ [] ∧ ∀ c ∈ k.data, c ≠ '.' ∧ c ≠ '[' := by
  have h2 := h
  simp only [goodKey, Bool.and_eq_true, decide_eq_true_eq, List.all_eq_true] at h2
  constructor
  · intro hnil
    apply h2.1
    rw [← string_mk_data k, hnil]
  · intro c hc
    simpa using h2.2 c hc

/-- `takeWhile` over a satisfying block up to a failing element. -/
theorem takeWhile_block {p : Char → Bool} : ∀ (l1 : List Char) (x : Char) (l2 : List Char),
    (∀ c ∈ l1, p c = true) → p x = false →
    (l1 ++ x :: l2).takeWhile p = l1
  | [], x, l2, _, hx => by simp [List.takeWhile_cons, hx]
  | c :: l1, x, l2, hall, hx => by
      have hc := hall c (List.mem_cons_self c l1)
      have ih := takeWhile_block l1 x l2 (fun d hd => hall d (List.mem_cons_of_mem c hd)) hx
      simp [List.takeWhile_cons, hc, ih]

/-- The greedy segment regex rejects a chunk that is a plain good key. -/
theorem parseArraySeg_fld {k : String} (hk : goodKey k = true) : parseArraySeg k = none := by
  rcases goodKey_spec hk with ⟨_, hchars⟩
  unfold parseArraySeg
  cases hrev : k.data.reverse with
  | nil => rfl
  | cons c rest =>
      dsimp only
      by_cases hc : c = ']'
      · rw [if_pos hc]
        cases hdrop : rest.drop ((rest.takeWhile (fun c => c.isDigit)).length) with
        | nil => rfl
        | cons d kr =>
            dsimp only
            by_cases hd : d = '['
            · exfalso
              have h1 : d ∈ rest.drop ((rest.takeWhile (fun c => c.isDigit)).length) := by
                rw [hdrop]
                exact List.mem_cons_self d kr
              have h2 : d ∈ rest := List.mem_of_mem_drop h1
              have h3 : d ∈ k.data.reverse := by
                rw [hrev]
                exact List.mem_cons_of_mem c h2
              have h4 : d ∈ k.data := List.mem_reverse.mp h3
              exact (hchars d h4).2 hd
            · rw [if_neg hd]
      · rw [if_neg hc]

/-- The greedy segment regex parses a rendered `key[index]` chunk back
to its key and index. -/
theorem parseArraySeg_render_idx {k : String} (hk : goodKey k = true) (i : Nat) :
    parseArraySeg (Seg.render (Seg.idx k i)) = some (k, i) := by
  rcases goodKey_spec hk with ⟨hknil, _⟩
  have hdata : (Seg.render (Seg.idx k i)).data
      = k.data ++ '[' :: ((natToString i).data ++ [']']) := by
    show (k ++ "[" ++ natToString i ++ "]").data = _
    simp
  have hrev : (Seg.render (Seg.idx k i)).data.reverse
      = ']' :: ((natToString i).data.reverse ++ '[' :: k.data.reverse) := by
    rw [hdata]
    simp
  unfold parseArraySeg
  rw [hrev]
  dsimp only
  rw [if_pos rfl]
  have htake : (((natToString i).data.reverse ++ '[' :: k.data.reverse).takeWhile
      (fun c => c.isDigit)) = (natToString i).data.reverse := by
    refine takeWhile_block _ _ _ (fun c hc => ?_) (by decide)
    exact natDigits_all_digit (i + 1) i c (List.mem_reverse.mp hc)
  rw [htake, List.drop_left]
  dsimp only
  rw [if_pos rfl]
  rw [if_neg (by
    push_neg
    constructor
    · simpa using natDigits_ne_nil i
    · simpa using fun h => hknil (by simpa using congrArg List.reverse h))]
  rw [List.reverse_reverse, List.reverse_reverse, string_mk_data, digitsToNat_natToString]

/-- The rendered chunk of a good segment contains no dot. -/
theorem seg_render_no_dot {sg : Seg} (h : goodSeg sg = true) :
    ('.' : Char) ∉ (Seg.render sg).data := by
  cases sg with
  | fld k =>
      rcases goodKey_spec (by simpa [goodSeg, Seg.key] using h) with ⟨_, hchars⟩
      exact fun hc => (hchars _ hc).1 rfl
  | idx k i =>
      rcases goodKey_spec (by simpa [goodSeg, Seg.key] using h) with ⟨_, hchars⟩
      intro hc
      have : ('.' : Char) ∈ k.data ++ '[' :: ((natToString i).data ++ [']']) := by
        have hdata : (Seg.render (Seg.idx k i)).data
            = k.data ++ '[' :: ((natToString i).data ++ [']']) := by
          show (k ++ "[" ++ natToString i ++ "]").data = _
          simp
        rwa [hdata] at hc
      rcases List.mem_append.mp this with h1 | h2
      · exact (hchars _ h1).1 rfl
      · rcases List.mem_cons.mp h2 with h3 | h4
        · cases h3
        · rcases List.mem_append.mp h4 with h5 | h6
          · exact isDigit_ne (natDigits_all_digit (i + 1) i _ h5) (by decide) rfl
          · rcases List.mem_singleton.mp h6 with h7
            cases h7

/-- The rendered chunk of a good segment is non-empty. -/
theorem seg_render_ne_nil {sg : Seg} (h : goodSeg sg = true) : (Seg.render sg).data ≠ [] := by
  cases sg with
  | fld k => exact (goodKey_spec (by simpa [goodSeg, Seg.key] using h)).1
  | idx k i =>
      intro hc
      have hdata : (Seg.render (Seg.idx k i)).data
          = k.data ++ '[' :: ((natToString i).data ++ [']']) := by
        show (k ++ "[" ++ natToString i ++ "]").data = _
        simp
      rw [hdata] at hc
      simp at hc

/-- String equality from equality of the underlying character lists. -/
theorem string_data_ext {s t : String} (h : s.data = t.data) : s = t := by
  cases s
  cases t
  exact congrArg String.mk h

/-- `intercalate` with two or more chunks peels the first chunk and a
separator. -/
theorem intercalate_cons_cons {a : Type} (sep x y : List a) (l : List (List a)) :
    List.intercalate sep (x :: y :: l) = x ++ sep ++ List.intercalate sep (y :: l) := by
  simp [List.intercalate, List.intersperse]

/-- `intercalate` of a single separator element as a dotted flatten. -/
theorem intercalate_dot_flatten {a : Type} (sep : a) :
    ∀ (l : List (List a)) (x : List a),
    List.intercalate [sep] (x :: l) = x ++ (l.map (fun b => sep :: b)).flatten
  | [], x => by simp [List.intercalate]
  | y :: l, x => by
      rw [intercalate_cons_cons, intercalate_dot_flatten sep l y]
      simp

/-- Appending a chunk to the empty prefix yields the chunk text itself. -/
theorem appendSeg_empty (sg : Seg) : appendSeg "" sg = Seg.render sg := by
  cases sg <;> simp [appendSeg, joinKey, Seg.render]

/-- Appending a chunk to a non-empty prefix inserts a dot before the
chunk text. -/
theorem appendSeg_ne (p : String) (hp : p ≠ "") (sg : Seg) :
    appendSeg p sg = p ++ "." ++ Seg.render sg := by
  cases sg with
  | fld k =>
      show joinKey p k = _
      rw [joinKey, if_neg hp]
      rfl
  | idx k i =>
      show joinKey p k ++ "[" ++ natToString i ++ "]" = _
      rw [joinKey, if_neg hp]
      apply string_data_ext
      simp [Seg.render]

/-- Character-level shape of a rendered path over a non-empty prefix:
the prefix followed by one dotted chunk per segment. -/
theorem renderPath_data_flatten : ∀ (segs : List Seg) (p : String), p ≠ "" →
    (renderPath p segs).data
      = p.data ++ (segs.map (fun sg => '.' :: (Seg.render sg).data)).flatten
  | [], p, _ => by simp [renderPath]
  | sg :: rest, p, hp => by
      have hd : (appendSeg p sg).data = p.data ++ '.' :: (Seg.render sg).data := by
        rw [appendSeg_ne p hp sg]
        simp
      have hne2 : appendSeg p sg ≠ "" := by
        intro hcon
        rw [hcon] at hd
        rw [show ("" : String).data = [] from rfl] at hd
        simp at hd
      show (renderPath (appendSeg p sg) rest).data = _
      rw [renderPath_data_flatten rest (appendSeg p sg) hne2, hd]
      simp

/-- A rendered non-empty chunk list over the empty prefix is the
dot-intercalation of the chunk texts. -/
theorem renderPath_empty_data (sg : Seg) (rest : List Seg) (hg : goodSeg sg = true) :
    (renderPath "" (sg :: rest)).data
      = List.intercalate ['.'] ((sg :: rest).map (fun s => (Seg.render s).data)) := by
  have h0 : renderPath "" (sg :: rest) = renderPath (Seg.render sg) rest := by
    show renderPath (appendSeg "" sg) rest = _
    rw [appendSeg_empty]
  have hne : Seg.render sg ≠ "" := by
    intro hcon
    exact seg_render_ne_nil hg (by rw [hcon])
  rw [h0, renderPath_data_flatten rest (Seg.render sg) hne, List.map_cons,
    intercalate_dot_flatten]
  simp [List.map_map, Function.comp_def]

/-- Splitting the rendered path of good chunks on `.` recovers exactly
the chunk texts. -/
theorem jsSplit_renderPath (sg : Seg) (rest : List Seg)
    (hgood : ∀ s ∈ sg :: rest, goodSeg s = true) :
    jsSplit (renderPath "" (sg :: rest)) '.' = (sg :: rest).map Seg.render := by
  have hx : ∀ l ∈ (sg :: rest).map (fun s => (Seg.render s).data), ('.' : Char) ∉ l := by
    intro l hl
    rcases List.mem_map.mp hl with ⟨s, hsmem, hleq⟩
    rw [← hleq]
    exact seg_render_no_dot (hgood s hsmem)
  have hne : (sg :: rest).map (fun s => (Seg.render s).data) ≠ [] := by simp
  unfold jsSplit
  rw [renderPath_empty_data sg rest (hgood sg (List.mem_cons_self sg rest)),
    List.splitOn_intercalate ((sg :: rest).map (fun s => (Seg.render s).data)) '.' hx hne, List.map_map]
  apply List.map_congr_left
  intro s hs
  exact string_mk_data (Seg.render s)

/-- Writing back the value a key already holds leaves the fields
unchanged. -/
theorem fields_set_get_self : ∀ (fs : JsonFields) (k : String) (v : Json),
    JsonFields.get fs k = some v → JsonFields.set fs k v = fs
  | .nil, k, v, h => by simp [JsonFields.get] at h
  | .cons k1 v1 rest, k, v, h => by
      by_cases hk : k1 = k
      · subst hk
        rw [JsonFields.get, if_pos rfl] at h
        injection h with h
        rw [JsonFields.set, if_pos rfl, h]
      · rw [JsonFields.get, if_neg hk] at h
        rw [JsonFields.set, if_neg hk, fields_set_get_self rest k v h]

/-- Writing back the element an index already holds leaves the array
unchanged. -/
theorem setPad_get_self : ∀ (xs : JsonList) (i : Nat) (v : Json),
    JsonList.get xs i = some v → JsonList.setPad xs i v = xs
  | .nil, i, v, h => by simp [JsonList.get] at h
  | .cons x rest, 0, v, h => by
      rw [JsonList.get] at h
      injection h with h
      rw [JsonList.setPad, h]
  | .cons x rest, i + 1, v, h => by
      rw [JsonList.get] at h
      rw [JsonList.setPad, setPad_get_self rest i v h]

/-- A successful lookup means the key occurs among the fields. -/
theorem get_some_hasKey : ∀ (fs : JsonFields) (k : String) (v : Json),
    JsonFields.get fs k = some v → hasKey fs k = true
  | .nil, k, v, h => by simp [JsonFields.get] at h
  | .cons k1 v1 rest, k, v, h => by
      by_cases hk : k1 = k
      · simp [hasKey, hk]
      · rw [JsonFields.get, if_neg hk] at h
        simp [hasKey, hk, get_some_hasKey rest k v h]

/-- Chunks leading from an object to a string leaf are non-empty. -/
theorem segsAt_obj_ne_nil {fs : JsonFields} {segs : List Seg} {s : String}
    (h : SegsAt (.obj fs) segs (.str s)) : segs ≠ [] := by
  intro he
  subst he
  cases h

/-- A value a non-empty chunk list starts from is an object. -/
theorem segsAt_cons_obj {c : Json} {sg : Seg} {rest : List Seg} {t : Json}
    (h : SegsAt c (sg :: rest) t) : ∃ fs2, c = .obj fs2 := by
  cases h with
  | fld _ _ => exact ⟨_, rfl⟩
  | idx _ _ _ => exact ⟨_, rfl⟩

/-- Chunks addressing a leaf below an object still address it after a
fresh, distinct key is prepended to the object. -/
theorem segsAt_cons_lift {fs : JsonFields} {k0 : String} {v0 : Json} {segs : List Seg}
    {s : String} (hnk : hasKey fs k0 = false) (h : SegsAt (.obj fs) segs (.str s)) :
    SegsAt (.obj (.cons k0 v0 fs)) segs (.str s) := by
  cases h with
  | fld hget hrest =>
      refine SegsAt.fld ?_ hrest
      rw [JsonFields.get, if_neg ?_]
      · exact hget
      · intro he
        subst he
        rw [get_some_hasKey fs _ _ hget] at hnk
        cases hnk
  | idx hget hgeti hrest =>
      refine SegsAt.idx ?_ hgeti hrest
      rw [JsonFields.get, if_neg ?_]
      · exact hget
      · intro he
        subst he
        rw [get_some_hasKey fs _ _ hget] at hnk
        cases hnk

/-- A present object is kept by the truthiness guard. -/
theorem truthyOr_obj (fs : JsonFields) (d : Json) : truthyOr (some (.obj fs)) d = .obj fs := rfl

/-- A present array is kept by the truthiness guard. -/
theorem truthyOr_arr (xs : JsonList) (d : Json) : truthyOr (some (.arr xs)) d = .arr xs := rfl

/-- A helper for extraction soundness: prepending the plain chunk of a
field whose value carries the chunks. -/
theorem sound_fields_step_plain {fs : JsonFields} {k : String} {v : Json} {p : String}
    {e : String × String} (hk : goodKey k = true)
    (hs : ∃ segs, (∀ sg ∈ segs, goodSeg sg = true) ∧ SegsAt v segs (.str e.2) ∧
      jsTrim e.2 ≠ "" ∧ e.1 = renderPath (joinKey p k) segs)
    (hget : JsonFields.get fs k = some v) :
    ∃ segs, (∀ sg ∈ segs, goodSeg sg = true) ∧ SegsAt (.obj fs) segs (.str e.2) ∧
      jsTrim e.2 ≠ "" ∧ e.1 = renderPath p segs := by
  obtain ⟨segs, hgood, hat, htrim, hpath⟩ := hs
  refine ⟨Seg.fld k :: segs, ?_, SegsAt.fld hget hat, htrim, ?_⟩
  · intro sg hsg
    rcases List.mem_cons.mp hsg with heq | hm
    · rw [heq]
      simpa [goodSeg, Seg.key] using hk
    · exact hgood sg hm
  · rw [hpath]
    rfl

/-- A helper for extraction soundness: prepending the indexed chunk of a
field holding an array whose element carries the chunks. -/
theorem sound_fields_step_arr {fs : JsonFields} {k : String} {xs : JsonList} {p : String}
    {e : String × String} (hk : goodKey k = true)
    (hs : ∃ j c segs, JsonList.get xs j = some c ∧ (∀ sg ∈ segs, goodSeg sg = true) ∧
      SegsAt c segs (.str e.2) ∧ jsTrim e.2 ≠ "" ∧
      e.1 = renderPath (joinKey p k ++ "[" ++ natToString j ++ "]") segs)
    (hget : JsonFields.get fs k = some (.arr xs)) :
    ∃ segs, (∀ sg ∈ segs, goodSeg sg = true) ∧ SegsAt (.obj fs) segs (.str e.2) ∧
      jsTrim e.2 ≠ "" ∧ e.1 = renderPath p segs := by
  obtain ⟨j, c, segs, hj, hgood, hat, htrim, hpath⟩ := hs
  refine ⟨Seg.idx k j :: segs, ?_, SegsAt.idx hget hj hat, htrim, ?_⟩
  · intro sg hsg
    rcases List.mem_cons.mp hsg with heq | hm
    · rw [heq]
      simpa [goodSeg, Seg.key] using hk
    · exact hgood sg hm
  · rw [hpath]
    rfl

mutual

/-- Extraction soundness for a good value: every extracted entry is
addressed by good chunks rendering the entry path. -/
theorem extract_sound_val : ∀ (cur : Json) (p : String) (e : String × String),
    goodVal cur = true → e ∈ extractTranslatableKeys cur p → ExtractedEntrySound cur p e
  | .str s, p, e, _, h => by
      rw [extractTranslatableKeys] at h
      split at h
      · next hs =>
          rcases List.mem_singleton.mp h with rfl
          exact ⟨[], by intro sg hsg; simp at hsg, SegsAt.nil _, hs, rfl⟩
      · exact absurd h (List.not_mem_nil e)
  | .obj fs, p, e, hg, h =>
      extract_sound_fields fs p e (by rwa [goodVal] at hg)
        (by rwa [extractTranslatableKeys] at h)
  | .arr xs, p, e, hg, h => by
      rw [extractTranslatableKeys] at h
      obtain ⟨j, c, segs, hj, hgood, hat, htrim, hpath⟩ :=
        extract_sound_elems xs p 0 e (by rwa [goodVal] at hg) h
      exact ⟨j, c, segs, hj, hgood, hat, htrim, by simpa using hpath⟩
  | .null, p, e, _, h => absurd (by rwa [extractTranslatableKeys] at h) (List.not_mem_nil e)
  | .bool _, p, e, _, h => absurd (by rwa [extractTranslatableKeys] at h) (List.not_mem_nil e)
  | .num _, p, e, _, h => absurd (by rwa [extractTranslatableKeys] at h) (List.not_mem_nil e)
termination_by structural cur _ _ _ _ => cur

/-- Extraction soundness for good fields. -/
theorem extract_sound_fields : ∀ (fs : JsonFields) (p : String) (e : String × String),
    goodFields fs = true → e ∈ extractFields fs p →
    ∃ segs, (∀ sg ∈ segs, goodSeg sg = true) ∧ SegsAt (.obj fs) segs (.str e.2) ∧
      jsTrim e.2 ≠ "" ∧ e.1 = renderPath p segs
  | .nil, p, e, _, h => absurd (by rwa [extractFields] at h) (List.not_mem_nil e)
  | .cons k v rest, p, e, hg, h => by
      rw [extractFields] at h
      have hg2 := hg
      simp only [goodFields, Bool.and_eq_true, Bool.not_eq_true'] at hg2
      obtain ⟨⟨⟨hk, hnk⟩, hv⟩, hrest⟩ := hg2
      rcases List.mem_append.mp h with h1 | h2
      · have hs := extract_sound_val v (joinKey p k) e hv h1
        cases v with
        | arr xs => exact sound_fields_step_arr hk hs (by simp [JsonFields.get])
        | str s => exact sound_fields_step_plain hk hs (by simp [JsonFields.get])
        | obj fs2 => exact sound_fields_step_plain hk hs (by simp [JsonFields.get])
        | null => exact absurd (by rwa [extractTranslatableKeys] at h1) (List.not_mem_nil e)
        | bool b => exact absurd (by rwa [extractTranslatableKeys] at h1) (List.not_mem_nil e)
        | num n => exact absurd (by rwa [extractTranslatableKeys] at h1) (List.not_mem_nil e)
      · obtain ⟨segs, hgood, hat, htrim, hpath⟩ := extract_sound_fields rest p e hrest h2
        exact ⟨segs, hgood, segsAt_cons_lift hnk hat, htrim, hpath⟩
termination_by structural fs _ _ _ _ => fs

/-- Extraction soundness for good array elements, indexed from `i0`. -/
theorem extract_sound_elems : ∀ (xs : JsonList) (p : String) (i0 : Nat) (e : String × String),
    goodElems xs = true → e ∈ extractElems xs p i0 →
    ∃ j c segs, JsonList.get xs j = some c ∧ (∀ sg ∈ segs, goodSeg sg = true) ∧
      SegsAt c segs (.str e.2) ∧ jsTrim e.2 ≠ "" ∧
      e.1 = renderPath (p ++ "[" ++ natToString (i0 + j) ++ "]") segs
  | .nil, p, i0, e, _, h => absurd (by rwa [extractElems] at h) (List.not_mem_nil e)
  | .cons x rest, p, i0, e, hg, h => by
      rw [extractElems] at h
      rcases List.mem_append.mp h with h1 | h2
      · cases x with
        | arr ys => simp [goodElems] at hg
        | str s =>
            simp only [goodElems, Bool.and_eq_true] at hg
            obtain ⟨segs, hgood, hat, htrim, hpath⟩ :=
              extract_sound_val (.str s) (p ++ "[" ++ natToString i0 ++ "]") e hg.1 h1
            exact ⟨0, .str s, segs, rfl, hgood, hat, htrim, by simpa using hpath⟩
        | obj fs2 =>
            simp only [goodElems, Bool.and_eq_true] at hg
            obtain ⟨segs, hgood, hat, htrim, hpath⟩ :=
              extract_sound_val (.obj fs2) (p ++ "[" ++ natToString i0 ++ "]") e hg.1 h1
            exact ⟨0, .obj fs2, segs, rfl, hgood, hat, htrim, by simpa using hpath⟩
        | null => exact absurd (by rwa [extractTranslatableKeys] at h1) (List.not_mem_nil e)
        | bool b => exact absurd (by rwa [extractTranslatableKeys] at h1) (List.not_mem_nil e)
        | num n => exact absurd (by rwa [extractTranslatableKeys] at h1) (List.not_mem_nil e)
      · have hgrest : goodElems rest = true := by
          cases x with
          | arr ys => simp [goodElems] at hg
          | str s => exact (Bool.and_eq_true .. ▸ hg).2
          | obj fs2 => exact (Bool.and_eq_true .. ▸ hg).2
          | null => exact (Bool.and_eq_true .. ▸ hg).2
          | bool b => exact (Bool.and_eq_true .. ▸ hg).2
          | num n => exact (Bool.and_eq_true .. ▸ hg).2
        obtain ⟨j, c, segs, hj, hgood, hat, htrim, hpath⟩ :=
          extract_sound_elems rest p (i0 + 1) e hgrest h2
        refine ⟨j + 1, c, segs, by simpa [JsonList.get] using hj, hgood, hat, htrim, ?_⟩
        rw [show i0 + (j + 1) = i0 + 1 + j by omega]
        exact hpath
termination_by structural xs _ _ _ _ _ => xs

end

/-- Walking good chunks that address a string leaf and assigning that
same leaf value writes the document back unchanged. -/
theorem setNestedGo_self : ∀ (segs : List Seg) (cur : Json) (value : String),
    (∀ sg ∈ segs, goodSeg sg = true) → SegsAt cur segs (.str value) → segs ≠ [] →
    setNestedGo cur (segs.map Seg.render) (.str value) = .ok cur
  | [], _, _, _, _, hne => absurd rfl hne
  | [sg], cur, value, hgood, hat, hne0 => by
      have hkg : goodSeg sg = true := hgood sg (List.mem_cons_self sg [])
      cases hat with
      | fld hget hrest =>
          rename_i fs k c
          have hkk : goodKey k = true := by simpa [goodSeg, Seg.key] using hkg
          cases hrest
          simp only [List.map_cons, List.map_nil, Seg.render]
          rw [setNestedGo, parseArraySeg_fld hkk]
          show Except.ok (Json.obj (JsonFields.set fs k (Json.str value))) = _
          rw [fields_set_get_self fs k (.str value) hget]
      | idx hget hgeti hrest =>
          rename_i fs k xs i c
          have hkk : goodKey k = true := by simpa [goodSeg, Seg.key] using hkg
          cases hrest
          simp only [List.map_cons, List.map_nil]
          rw [setNestedGo, parseArraySeg_render_idx hkk i]
          simp only [getProp, hget, truthyOr_arr]
          show Except.ok (Json.obj (JsonFields.set fs k
            (Json.arr (JsonList.setPad xs i (Json.str value))))) = _
          rw [setPad_get_self xs i (.str value) hgeti,
            fields_set_get_self fs k (.arr xs) hget]
  | sg :: sg2 :: rest, cur, value, hgood, hat, hne0 => by
      have hkg : goodSeg sg = true := hgood sg (List.mem_cons_self sg (sg2 :: rest))
      have hgood2 : ∀ s ∈ sg2 :: rest, goodSeg s = true :=
        fun s hs => hgood s (List.mem_cons_of_mem sg hs)
      cases hat with
      | fld hget hrest =>
          rename_i fs k c
          have hkk : goodKey k = true := by simpa [goodSeg, Seg.key] using hkg
          obtain ⟨fs2, rfl⟩ := segsAt_cons_obj hrest
          have ih := setNestedGo_self (sg2 :: rest) (.obj fs2) value hgood2 hrest (by simp)
          simp only [List.map_cons] at ih ⊢
          rw [show Seg.render (Seg.fld k) = k from rfl]
          rw [setNestedGo, parseArraySeg_fld hkk]
          simp only [getProp, hget, truthyOr_obj]
          rw [ih]
          show Except.ok (Json.obj (JsonFields.set fs k (Json.obj fs2))) = _
          rw [fields_set_get_self fs k (.obj fs2) hget]
      | idx hget hgeti hrest =>
          rename_i fs k xs i c
          have hkk : goodKey k = true := by simpa [goodSeg, Seg.key] using hkg
          obtain ⟨fs2, rfl⟩ := segsAt_cons_obj hrest
          have ih := setNestedGo_self (sg2 :: rest) (.obj fs2) value hgood2 hrest (by simp)
          simp only [List.map_cons] at ih ⊢
          rw [setNestedGo, parseArraySeg_render_idx hkk i]
          simp only [getProp, hget, truthyOr_arr, getIdx, hgeti, truthyOr_obj]
          rw [ih]
          show Except.ok (Json.obj (JsonFields.set fs k
            (Json.arr (JsonList.setPad xs i (Json.obj fs2))))) = _
          rw [setPad_get_self xs i (.obj fs2) hgeti,
            fields_set_get_self fs k (.arr xs) hget]
termination_by structural segs _ _ _ _ _ => segs

/-- On a good document every extracted entry assigns back exactly what
is already there. -/
theorem setNestedValue_self {D : Json} {e : String × String} (hD : goodDoc D = true)
    (he : e ∈ extractTranslatableKeys D "") :
    setNestedValue D e.1 e.2 = .ok D := by
  cases D with
  | obj fs =>
      have hfs : goodFields fs = true := by rwa [goodDoc] at hD
      obtain ⟨segs, hgood, hat, htrim, hpath⟩ :=
        extract_sound_fields fs "" e hfs (by rwa [extractTranslatableKeys] at he)
      have hne : segs ≠ [] := segsAt_obj_ne_nil hat
      obtain ⟨sg, rest, rfl⟩ : ∃ sg rest, segs = sg :: rest := by
        cases segs with
        | nil => exact absurd rfl hne
        | cons a l => exact ⟨a, l, rfl⟩
      unfold setNestedValue
      rw [hpath, jsSplit_renderPath sg rest hgood]
      exact setNestedGo_self (sg :: rest) (.obj fs) e.2 hgood hat hne
  | null => simp [goodDoc] at hD
  | bool b => simp [goodDoc] at hD
  | num n => simp [goodDoc] at hD
  | str s => simp [goodDoc] at hD
  | arr xs => simp [goodDoc] at hD

/-- A fold of assignments that each succeed and leave the document
unchanged keeps the accumulator fixed with no errors. -/
theorem applyFold_self : ∀ (ts : List (String × String)) (D : Json),
    (∀ e ∈ ts, setNestedValue D e.1 e.2 = .ok D) →
    ts.foldl applyStep (D, []) = (D, [])
  | [], D, _ => rfl
  | e :: ts, D, h => by
      have h1 : applyStep (D, []) e = (D, []) := by
        simp only [applyStep]
        rw [h e (List.mem_cons_self e ts)]
      show List.foldl applyStep (applyStep (D, []) e) ts = (D, [])
      rw [h1]
      exact applyFold_self ts D (fun x hx => h x (List.mem_cons_of_mem e hx))

/-- The head of a list is kept by appending on the right. -/
theorem head_append_ne {a : Type} (A B : List a) (h : A ≠ []) :
    (A ++ B).head? = A.head? := by
  cases A with
  | nil => exact absurd rfl h
  | cons x t => rfl

/-- Taking as many elements as `takeWhile` keeps yields `takeWhile`. -/
theorem take_length_takeWhile {a : Type} (p : a → Bool) :
    ∀ l : List a, l.take (l.takeWhile p).length = l.takeWhile p
  | [] => rfl
  | x :: l => by
      by_cases hpx : p x
      · simp [List.takeWhile_cons, hpx, take_length_takeWhile p l]
      · simp [List.takeWhile_cons, hpx]

/-- The greedy segment regex keeps the first character of the chunk as
the first character of the extracted key. -/
theorem parseArraySeg_key_head {s ak : String} {i : Nat}
    (hp : parseArraySeg s = some (ak, i)) : ak.data.head? = s.data.head? := by
  unfold parseArraySeg at hp
  cases hrev : s.data.reverse with
  | nil => rw [hrev] at hp; cases hp
  | cons c rest =>
      rw [hrev] at hp
      dsimp only at hp
      by_cases hc : c = ']'
      · rw [if_pos hc] at hp
        cases hdrop : rest.drop ((rest.takeWhile (fun c => c.isDigit)).length) with
        | nil => rw [hdrop] at hp; cases hp
        | cons d kr =>
            rw [hdrop] at hp
            dsimp only at hp
            by_cases hd : d = '['
            · rw [if_pos hd] at hp
              by_cases hde : rest.takeWhile (fun c => c.isDigit) = [] ∨ kr = []
              · rw [if_pos hde] at hp; cases hp
              · rw [if_neg hde] at hp
                push_neg at hde
                injection hp with hp
                injection hp with h1 h2
                subst h1
                show kr.reverse.head? = s.data.head?
                have hs : s.data = rest.reverse ++ [c] := by
                  have h3 := congrArg List.reverse hrev
                  rwa [List.reverse_reverse, List.reverse_cons] at h3
                have hrest : rest = rest.takeWhile (fun c => c.isDigit) ++ (d :: kr) := by
                  conv_lhs => rw [← List.take_append_drop
                    ((rest.takeWhile (fun c => c.isDigit)).length) rest]
                  rw [take_length_takeWhile, hdrop]
                have hkrne : kr.reverse ≠ [] := by simpa using hde.2
                rw [hs, hrest, List.reverse_append, List.reverse_cons]
                rw [head_append_ne _ _ (by simp), head_append_ne _ _ (by simp),
                  head_append_ne _ _ hkrne]
            · rw [if_neg hd] at hp; cases hp
      · rw [if_neg hc] at hp; cases hp

/-- A string starting with `[` is not a canonical array index. -/
theorem canonIndex_none_of_head (s : String) (h : s.data.head? = some '[') :
    canonIndex s = none := by
  simp only [canonIndex]
  split
  · next hcond =>
      exfalso
      obtain ⟨h1, h2, h3⟩ := hcond
      cases hd : s.data with
      | nil => exact h1 hd
      | cons c t =>
          rw [hd] at h h2
          have hc : c = '[' := by
            have h4 : some c = some '[' := h
            injection h4
          have h5 := (List.all_eq_true.mp h2) c (List.mem_cons_self c t)
          rw [hc] at h5
          exact absurd h5 (by decide)
  · rfl

/-- An absent value is replaced by the default by the truthiness guard. -/
theorem truthyOr_none (d : Json) : truthyOr none d = d := rfl

/-- A string key starting with `[` reads nothing from an array. -/
theorem getProp_arr_head (xs : JsonList) (s : String) (h : s.data.head? = some '[') :
    getProp (.arr xs) s = none := by
  rw [getProp, canonIndex_none_of_head s h]

/-- A string key starting with `[` writes a non-index property the model
drops: the array is unchanged and no error is raised. -/
theorem setProp_arr_head (xs : JsonList) (s : String) (v : Json) (h : s.data.head? = some '[') :
    setProp (.arr xs) s v = .ok (.arr xs) := by
  rw [setProp, canonIndex_none_of_head s h]

/-- The walk never throws once it is inside freshly created containers:
from an empty object every descent finds nothing, creates defaults, and
every write succeeds. -/
theorem setNestedGo_fresh : ∀ (segs : List String) (v : Json),
    ∃ r, setNestedGo (.obj .nil) segs v = .ok r
  | [], _ => ⟨.obj .nil, rfl⟩
  | [k], v => by
      rcases hp : parseArraySeg k with _ | ⟨ak, i2⟩
      · exact ⟨_, by rw [setNestedGo, hp]; rfl⟩
      · exact ⟨_, by rw [setNestedGo, hp]; rfl⟩
  | k :: k2 :: rest, v => by
      obtain ⟨r0, hr⟩ := setNestedGo_fresh (k2 :: rest) v
      rcases hp : parseArraySeg k with _ | ⟨ak, i2⟩
      · refine ⟨Json.obj (JsonFields.set .nil k r0), ?_⟩
        rw [setNestedGo, hp]
        simp only [getProp, JsonFields.get, truthyOr_none]
        rw [hr]
        rfl
      · refine ⟨Json.obj (JsonFields.set .nil ak (.arr (JsonList.setPad .nil i2 r0))), ?_⟩
        rw [setNestedGo, hp]
        simp only [getProp, JsonFields.get, truthyOr_none, getIdx, JsonList.get]
        rw [hr]
        rfl

/-- A walk from an array root whose first segment starts with `[` always
returns the array unchanged: the root read misses, the descent happens
in fresh containers, and the final root write is dropped. -/
theorem setNestedGo_arr_head (xs : JsonList) (u : List Char) (rest2 : List String) (v : Json) :
    setNestedGo (.arr xs) ((⟨'[' :: u⟩ : String) :: rest2) v = .ok (.arr xs) := by
  have hhead : ((⟨'[' :: u⟩ : String)).data.head? = some '[' := rfl
  cases rest2 with
  | nil =>
      rcases hp : parseArraySeg (⟨'[' :: u⟩ : String) with _ | ⟨ak, i2⟩
      · rw [setNestedGo, hp]
        exact setProp_arr_head xs _ v hhead
      · have hak : ak.data.head? = some '[' := (parseArraySeg_key_head hp).trans hhead
        rw [setNestedGo, hp]
        simp only [getProp_arr_head xs ak hak, truthyOr_none]
        show setProp (Json.arr xs) ak (Json.arr (JsonList.setPad .nil i2 v)) = _
        exact setProp_arr_head xs ak _ hak
  | cons r rs =>
      obtain ⟨r0, hr⟩ := setNestedGo_fresh (r :: rs) v
      rcases hp : parseArraySeg (⟨'[' :: u⟩ : String) with _ | ⟨ak, i2⟩
      · rw [setNestedGo, hp]
        simp only [getProp_arr_head xs _ hhead, truthyOr_none]
        rw [hr]
        exact setProp_arr_head xs _ r0 hhead
      · have hak : ak.data.head? = some '[' := (parseArraySeg_key_head hp).trans hhead
        rw [setNestedGo, hp]
        simp only [getProp_arr_head xs ak hak, truthyOr_none, getIdx, JsonList.get]
        rw [hr]
        show setProp (Json.arr xs) ak (Json.arr (JsonList.setPad .nil i2 r0)) = _
        exact setProp_arr_head xs ak _ hak

/-- Splitting a string whose head is not the separator keeps that head
at the head of the first chunk. -/
theorem jsSplit_head_cons (c : Char) (t : List Char) (hc : (c == '.') = false) :
    ∃ u rest2, jsSplit (⟨c :: t⟩ : String) '.' = (⟨c :: u⟩ : String) :: rest2 := by
  unfold jsSplit
  show ∃ u rest2, ((c :: t).splitOn '.').map (fun cs => (⟨cs⟩ : String)) = _ :: rest2
  rw [show (c :: t).splitOn '.' = ((t.splitOn '.')).modifyHead (List.cons c) by
    simp [List.splitOn, List.splitOnP_cons, hc]]
  cases hsp : t.splitOn '.' with
  | nil => exact absurd hsp (by simp only [List.splitOn]; exact List.splitOnP_ne_nil _ t)
  | cons u us =>
      exact ⟨u, us.map (fun cs => (⟨cs⟩ : String)), rfl⟩

mutual

/-- Every path extracted under a non-empty prefix starts with the
prefix's first character. -/
theorem extract_path_head : ∀ (cur : Json) (p : String) (e : String × String),
    p.data ≠ [] → e ∈ extractTranslatableKeys cur p → e.1.data.head? = p.data.head?
  | .str s, p, e, _, h => by
      rw [extractTranslatableKeys] at h
      split at h
      · rcases List.mem_singleton.mp h with rfl; rfl
      · exact absurd h (List.not_mem_nil e)
  | .obj fs, p, e, hp, h =>
      extractFields_path_head fs p e hp (by rwa [extractTranslatableKeys] at h)
  | .arr xs, p, e, hp, h =>
      extractElems_path_head xs p 0 e hp (by rwa [extractTranslatableKeys] at h)
  | .null, p, e, _, h => absurd (by rwa [extractTranslatableKeys] at h) (List.not_mem_nil e)
  | .bool _, p, e, _, h => absurd (by rwa [extractTranslatableKeys] at h) (List.not_mem_nil e)
  | .num _, p, e, _, h => absurd (by rwa [extractTranslatableKeys] at h) (List.not_mem_nil e)
termination_by structural cur _ _ _ _ => cur

/-- Paths extracted from fields under a non-empty prefix keep its first
character. -/
theorem extractFields_path_head : ∀ (fs : JsonFields) (p : String) (e : String × String),
    p.data ≠ [] → e ∈ extractFields fs p → e.1.data.head? = p.data.head?
  | .nil, p, e, _, h => absurd (by rwa [extractFields] at h) (List.not_mem_nil e)
  | .cons k v rest, p, e, hp, h => by
      rw [extractFields] at h
      rcases List.mem_append.mp h with h1 | h2
      · have hpe : p ≠ "" := fun hcon => hp (by rw [hcon])
        have hjdata : (joinKey p k).data = p.data ++ '.' :: k.data := by
          rw [joinKey, if_neg hpe]
          simp
        have hjne : (joinKey p k).data ≠ [] := by rw [hjdata]; simp
        have h3 := extract_path_head v (joinKey p k) e hjne h1
        rw [h3, hjdata, head_append_ne _ _ hp]
      · exact extractFields_path_head rest p e hp h2
termination_by structural fs _ _ _ _ => fs

/-- Paths extracted from array elements under a non-empty prefix keep
its first character. -/
theorem extractElems_path_head : ∀ (xs : JsonList) (p : String) (i0 : Nat)
    (e : String × String),
    p.data ≠ [] → e ∈ extractElems xs p i0 → e.1.data.head? = p.data.head?
  | .nil, p, i0, e, _, h => absurd (by rwa [extractElems] at h) (List.not_mem_nil e)
  | .cons x rest, p, i0, e, hp, h => by
      rw [extractElems] at h
      rcases List.mem_append.mp h with h1 | h2
      · have hqdata : (p ++ "[" ++ natToString i0 ++ "]").data
            = p.data ++ '[' :: ((natToString i0).data ++ [']']) := by simp
        have hqne : (p ++ "[" ++ natToString i0 ++ "]").data ≠ [] := by
          rw [hqdata]
          simp
        have h3 := extract_path_head x (p ++ "[" ++ natToString i0 ++ "]") e hqne h1
        rw [h3, hqdata, head_append_ne _ _ hp]
      · exact extractElems_path_head rest p (i0 + 1) e hp h2
termination_by structural xs _ _ _ _ _ => xs

end

/-- Every path extracted from an array at the root starts with `[`. -/
theorem extractElems_root_head : ∀ (xs : JsonList) (i0 : Nat) (e : String × String),
    e ∈ extractElems xs "" i0 → e.1.data.head? = some '['
  | .nil, i0, e, h => absurd (by rwa [extractElems] at h) (List.not_mem_nil e)
  | .cons x rest, i0, e, h => by
      rw [extractElems] at h
      rcases List.mem_append.mp h with h1 | h2
      · have hqdata : (("" : String) ++ "[" ++ natToString i0 ++ "]").data
            = '[' :: ((natToString i0).data ++ [']']) := by simp
        have hqne : (("" : String) ++ "[" ++ natToString i0 ++ "]").data ≠ [] := by
          rw [hqdata]
          simp
        have h3 := extract_path_head x (("" : String) ++ "[" ++ natToString i0 ++ "]") e hqne h1
        rw [h3, hqdata]
        rfl
      · exact extractElems_root_head rest (i0 + 1) e h2

/-- On an array-rooted document every extracted entry assigns a
JSON-invisible property: the document is returned unchanged with no
error. -/
theorem setNestedValue_arr_self {xs : JsonList} {e : String × String}
    (he : e ∈ extractTranslatableKeys (.arr xs) "") :
    setNestedValue (.arr xs) e.1 e.2 = .ok (.arr xs) := by
  have hhead : e.1.data.head? = some '[' :=
    extractElems_root_head xs 0 e (by rwa [extractTranslatableKeys] at he)
  cases hd : e.1.data with
  | nil => rw [hd] at hhead; cases hhead
  | cons c t =>
      rw [hd] at hhead
      have hc : c = '[' := by
        have h4 : some c = some '[' := hhead
        injection h4
      subst hc
      have hpe : e.1 = (⟨'[' :: t⟩ : String) := string_data_ext (by rw [hd])
      obtain ⟨u, rest2, hsplit⟩ := jsSplit_head_cons '[' t (by decide)
      unfold setNestedValue
      rw [hpe, hsplit]
      exact setNestedGo_arr_head xs u rest2 (.str e.2)

/-- C1: the round-trip law holds on every document whose root is safe:
any array root (array-root paths all start with `[`, which
`setNestedValue` can only write back as a non-index array property that
`JSON.stringify` never shows, so the clone is reproduced with no
errors — whatever the array contains); an object root whose object keys
at every level are non-empty, free of `.` and `[`, and distinct from
their siblings, with no array nested directly inside an array; or a
leaf root that extracts nothing.  `roundTrip_fails_on_dotted_key` shows
the law fails for the dotted object keys and the object-rooted directly
nested arrays the claim also asserts. -/
theorem roundTrip_of_safe_root (D : Json) (h : roundTripSafe D = true) :
    applyTranslations D (extractTranslatableKeys D "") = (D, []) := by
  unfold applyTranslations
  rw [deepClone_eq]
  apply applyFold_self
  intro e he
  cases D with
  | obj fs => exact setNestedValue_self h he
  | arr xs => exact setNestedValue_arr_self he
  | null => rw [extractTranslatableKeys] at he; exact absurd he (List.not_mem_nil e)
  | bool b => rw [extractTranslatableKeys] at he; exact absurd he (List.not_mem_nil e)
  | num n => rw [extractTranslatableKeys] at he; exact absurd he (List.not_mem_nil e)
  | str s =>
      have hts : jsTrim s = "" := by simpa [roundTripSafe] using h
      rw [extractTranslatableKeys, hts] at he
      simp at he

/-- The round-trip theorem evaluated at a concrete good object document
and at an array-rooted document containing a nested array and a dotted
object key. -/
theorem roundTrip_of_safe_root_witness :
    (roundTripSafe (Json.obj (.cons "a" (.str "Hello")
        (.cons "b" (.obj (.cons "c" (.str "World") .nil))
          (.cons "d" (.arr (.cons (.str "x") (.cons (.str " ") .nil))) .nil)))) = true
      ∧ applyTranslations
          (Json.obj (.cons "a" (.str "Hello")
            (.cons "b" (.obj (.cons "c" (.str "World") .nil))
              (.cons "d" (.arr (.cons (.str "x") (.cons (.str " ") .nil))) .nil))))
          (extractTranslatableKeys
            (Json.obj (.cons "a" (.str "Hello")
              (.cons "b" (.obj (.cons "c" (.str "World") .nil))
                (.cons "d" (.arr (.cons (.str "x") (.cons (.str " ") .nil))) .nil)))) "")
        = (Json.obj (.cons "a" (.str "Hello")
            (.cons "b" (.obj (.cons "c" (.str "World") .nil))
              (.cons "d" (.arr (.cons (.str "x") (.cons (.str " ") .nil))) .nil))), []))
    ∧ (roundTripSafe (Json.arr (.cons (.arr (.cons (.str "x") .nil))
        (.cons (.obj (.cons "a.b" (.str "u") .nil)) .nil))) = true
      ∧ applyTranslations
          (Json.arr (.cons (.arr (.cons (.str "x") .nil))
            (.cons (.obj (.cons "a.b" (.str "u") .nil)) .nil)))
          (extractTranslatableKeys
            (Json.arr (.cons (.arr (.cons (.str "x") .nil))
              (.cons (.obj (.cons "a.b" (.str "u") .nil)) .nil))) "")
        = (Json.arr (.cons (.arr (.cons (.str "x") .nil))
            (.cons (.obj (.cons "a.b" (.str "u") .nil)) .nil)), [])) :=
  ⟨⟨by decide, roundTrip_of_safe_root _ (by decide)⟩,
   ⟨by decide, roundTrip_of_safe_root _ (by decide)⟩⟩


end JsonTranslate
